import Mathlib

/-!
Verification of the expense-tracker storage/validation core
(`src/expense_tracker.py`) against its specification.

The Python source is shallowly embedded: each record is a five-field
string structure (a CSV row as read by `csv.DictReader`); the store is
the list of records in on-disk order; the interactive operations become
pure functions taking the prompted inputs as string parameters and the
current store, and returning an outcome together with the store that the
operation leaves persisted (the code's `write_all` call, or the
unchanged store when the code returns before writing).

Dates are parsed with a model of CPython's
`datetime.strptime(s, "%Y-%m-%d")` (which compiles the format to the
regex `(?P<Y>\d\d\d\d)-(1[0-2]|0[1-9]|[1-9])-(3[01]|[12]\d|0[1-9]|[1-9])`,
matched at the start of the string with a trailing
"unconverted data remains" check, followed by calendar validation in the
`datetime` constructor).  Amounts are parsed with a model of
`decimal.Decimal(s).quantize(Decimal("0.01"))` under the default context
(precision 28, ROUND_HALF_EVEN, InvalidOperation trapped).
-/

namespace ExpenseTracker

/-- An expense record: the five CSV fields, all strings, exactly as a
`csv.DictReader` row of the backing file. -/
structure Record where
  id : String
  date : String
  category : String
  amount : String
  description : String
deriving Repr, DecidableEq

/-- `CSV_FIELDS` from the source: the schema of the backing file. -/
def CSV_FIELDS : List String := ["id", "date", "category", "amount", "description"]

/-! ## Dates: model of `parse_date` (src lines 49-54) -/

/-- A Python `datetime.date` value. -/
structure PyDate where
  year : Nat
  month : Nat
  day : Nat
deriving Repr, DecidableEq

/-- Python `date` ordering is lexicographic on (year, month, day). -/
def dateLe (a b : PyDate) : Bool :=
  a.year < b.year ||
    (a.year = b.year && (a.month < b.month ||
      (a.month = b.month && a.day ≤ b.day)))

/-- Strict version of `dateLe`. -/
def dateLt (a b : PyDate) : Bool :=
  a.year < b.year ||
    (a.year = b.year && (a.month < b.month ||
      (a.month = b.month && a.day < b.day)))

/-- Numeric value of a digit character. -/
def digitVal (c : Char) : Nat := c.toNat - 48

/-- Gregorian leap-year rule used by `datetime`. -/
def isLeap (y : Nat) : Bool := y % 4 = 0 && (y % 100 ≠ 0 || y % 400 = 0)

/-- Number of days of a month, as validated by the `datetime` constructor. -/
def daysInMonth (y m : Nat) : Nat :=
  if m = 2 then (if isLeap y then 29 else 28)
  else if m = 4 || m = 6 || m = 9 || m = 11 then 30
  else 31

/-- The `%m` directive of `strptime` followed by the literal `-` of the
format.  The regex alternatives `1[0-2]|0[1-9]|[1-9]` are tried in order
with backtracking: a two-digit month is preferred, and a one-digit month
is retried when the two-digit reading is not followed by `-`. -/
def monthDash (cs : List Char) : Option (Nat × List Char) :=
  match cs with
  | a :: b :: rest =>
    if ((a = '1' && (b = '0' || b = '1' || b = '2')) ||
        (a = '0' && b.isDigit && b ≠ '0')) && rest.head? = some '-' then
      some (10 * digitVal a + digitVal b, rest.tail)
    else if a.isDigit && a ≠ '0' && b = '-' then
      some (digitVal a, rest)
    else none
  | _ => none

/-- The `%d` directive of `strptime` at the end of the pattern.  The
alternatives `3[01]|[12]\d|0[1-9]|[1-9]` are tried in order; whatever the
regex consumed, any leftover characters make `strptime` raise
"unconverted data remains", so the chosen reading must exhaust the
input. -/
def dayEnd (cs : List Char) : Option Nat :=
  match cs with
  | [a] => if a.isDigit && a ≠ '0' then some (digitVal a) else none
  | [a, b] =>
    if (a = '3' && (b = '0' || b = '1')) ||
       ((a = '1' || a = '2') && b.isDigit) ||
       (a = '0' && b.isDigit && b ≠ '0') then
      some (10 * digitVal a + digitVal b)
    else none
  | _ => none

/-- The `%Y` directive: value of the four year digits. -/
def yearVal (y1 y2 y3 y4 : Char) : Nat :=
  1000 * digitVal y1 + 100 * digitVal y2 + 10 * digitVal y3 + digitVal y4

/-- Model of `parse_date` (src lines 49-54):
`datetime.strptime(s, "%Y-%m-%d")` followed by construction of the date,
returning `none` on any exception.  `%Y` is exactly four digits; the
`datetime` constructor additionally requires `year ≥ 1` and a valid
calendar day. -/
def parse_date (s : String) : Option PyDate :=
  match s.data with
  | y1 :: y2 :: y3 :: y4 :: '-' :: rest =>
    if y1.isDigit && y2.isDigit && y3.isDigit && y4.isDigit then
      match monthDash rest with
      | some (m, rest2) =>
        match dayEnd rest2 with
        | some d =>
          if 1 ≤ yearVal y1 y2 y3 y4 && d ≤ daysInMonth (yearVal y1 y2 y3 y4) m then
            some ⟨yearVal y1 y2 y3 y4, m, d⟩
          else none
        | none => none
      | none => none
    else none
  | _ => none

/-! ## Amounts: model of `parse_amount` (src lines 41-46) -/

/-- A Python `Decimal` value: finite (sign, coefficient, exponent),
infinity, quiet NaN or signaling NaN (with sign and diagnostic
payload). -/
inductive Dec where
  | finite (neg : Bool) (coeff : Nat) (exp : Int)
  | infty (neg : Bool)
  | qnan (neg : Bool) (payload : String)
  | snan (neg : Bool) (payload : String)
deriving Repr, DecidableEq

/-- The whitespace stripped by `str.strip` before `Decimal` parsing
(ASCII part; the inputs reaching `parse_amount` in the program are
already `.strip()`ped at the prompt). -/
def isPyWs (c : Char) : Bool :=
  c = ' ' || c = '\t' || c = '\n' || c = '\r' || c = '\x0b' || c = '\x0c'

/-- Strip leading and trailing whitespace. -/
def stripWs (cs : List Char) : List Char :=
  ((cs.dropWhile isPyWs).reverse.dropWhile isPyWs).reverse

/-- Digits to a natural number (most significant first). -/
def digitsToNat (ds : List Char) : Nat :=
  ds.foldl (fun n c => 10 * n + digitVal c) 0

/-- An optional sign, as in the `Decimal` numeric-string grammar.
Returns (negative?, remaining input). -/
def parseSign : List Char → Bool × List Char
  | '-' :: rest => (true, rest)
  | '+' :: rest => (false, rest)
  | cs => (false, cs)

/-- The exponent part after `E`: `[-+]?\d+`, which must exhaust the
string.  Returns the signed exponent. -/
def parseExpPart (cs : List Char) : Option Int :=
  let (eneg, cs1) := parseSign cs
  let (ds, rest) := cs1.span Char.isDigit
  if ds.isEmpty || !rest.isEmpty then none
  else some (if eneg then -(digitsToNat ds : Int) else (digitsToNat ds : Int))

/-- The numeric alternative of the `Decimal` grammar after the sign:
`(?=\d|\.\d) \d* (\.\d*)? (E[-+]?\d+)?`, anchored to the end of the
string.  Returns (coefficient, exponent). -/
def parseNumericPart (cs : List Char) : Option (Nat × Int) :=
  let (ipart, cs1) := cs.span Char.isDigit
  match cs1 with
  | [] => if ipart.isEmpty then none else some (digitsToNat ipart, 0)
  | '.' :: cs2 =>
    let (fpart, cs3) := cs2.span Char.isDigit
    if ipart.isEmpty && fpart.isEmpty then none
    else
      match cs3 with
      | [] => some (digitsToNat (ipart ++ fpart), -(fpart.length : Int))
      | e :: cs4 =>
        if e.toLower = 'e' then
          match parseExpPart cs4 with
          | some ex => some (digitsToNat (ipart ++ fpart), ex - fpart.length)
          | none => none
        else none
  | e :: cs2 =>
    if !ipart.isEmpty && e.toLower = 'e' then
      match parseExpPart cs2 with
      | some ex => some (digitsToNat ipart, ex)
      | none => none
    else none

/-- The special-value alternatives of the `Decimal` grammar after the
sign: `Inf(inity)?` or `s?NaN\d*`, case-insensitive, anchored to the end
of the string. -/
def parseSpecialPart (neg : Bool) (cs : List Char) : Option Dec :=
  match cs.map Char.toLower with
  | 'i' :: 'n' :: 'f' :: rest =>
    if rest = [] || rest = ['i', 'n', 'i', 't', 'y'] then some (.infty neg) else none
  | 's' :: 'n' :: 'a' :: 'n' :: rest =>
    if rest.all Char.isDigit then some (.snan neg (String.mk rest)) else none
  | 'n' :: 'a' :: 'n' :: rest =>
    if rest.all Char.isDigit then some (.qnan neg (String.mk rest)) else none
  | _ => none

/-- Model of `Decimal(s)` construction from a string: per the library
documentation the input must conform to the numeric-string grammar after
leading/trailing whitespace and all underscores are removed;
`InvalidOperation` (modelled as `none`) otherwise.  Construction is
exact: no rounding, no context. -/
def decFromString (s : String) : Option Dec :=
  let cs := (stripWs s.data).filter (fun c => c ≠ '_')
  let (neg, cs1) := parseSign cs
  match parseNumericPart cs1 with
  | some (c, e) => some (.finite neg c e)
  | none => parseSpecialPart neg cs1

/-- Round `c / d` to the nearest integer, ties to even (`ROUND_HALF_EVEN`,
the default context rounding used by `quantize`).  `d` is positive. -/
def roundHalfEven (c d : Nat) : Nat :=
  let q := c / d
  let r := c % d
  if 2 * r < d then q
  else if d < 2 * r then q + 1
  else if q % 2 = 0 then q else q + 1

/-- Rescaling of a finite coefficient/exponent pair to exponent -2: pad
with zeros when the exponent is at least -2, otherwise round away the
extra fractional digits half-to-even. -/
def rescale01 (c : Nat) (e : Int) : Nat :=
  if -2 ≤ e then c * 10 ^ (e + 2).toNat
  else roundHalfEven c (10 ^ (-e - 2).toNat)

/-- Model of `.quantize(Decimal("0.01"))` under the default context:
quiet NaN propagates (no trap); signaling NaN and infinity raise
`InvalidOperation` (trapped by the source, hence `none`); a finite value
is rescaled to exponent -2 with ROUND_HALF_EVEN, raising
`InvalidOperation` when the result coefficient would exceed the context
precision of 28 digits (a coefficient is at most 28 digits iff it is
below 10^28). -/
def quantize01 : Dec → Option Dec
  | .qnan n p => some (.qnan n p)
  | .snan _ _ => none
  | .infty _ => none
  | .finite neg c e =>
    if rescale01 c e < 10 ^ 28 then some (.finite neg (rescale01 c e) (-2)) else none

/-- Model of `parse_amount` (src lines 41-46):
`Decimal(s).quantize(Decimal("0.01"))`, returning `None` when either
step raises `InvalidOperation`. -/
def parse_amount (s : String) : Option Dec :=
  match decFromString s with
  | none => none
  | some d => quantize01 d

/-- Does `parse_amount` yield a finite decimal? -/
def isFiniteDec : Option Dec → Bool
  | some (.finite _ _ _) => true
  | _ => false

/-- Model of Python `str()` on the `Decimal` values the program stores:
every value it stringifies is a `quantize01` output, i.e. finite with
exponent -2 (rendered in fixed point, as `str` does whenever the
exponent is ≤ 0 and the adjusted exponent is ≥ -6) or a NaN.  Other
exponents (never produced by the program's `str` call sites) are
rendered in the same fixed-point style for negative exponents and with
a plain `E+` suffix otherwise. -/
def decStr : Dec → String
  | .finite neg c e =>
    let sign := if neg then "-" else ""
    let ds := (toString c).data
    if e = 0 then sign ++ String.mk ds
    else if 0 < e then sign ++ String.mk ds ++ "E+" ++ toString e
    else
      let k := (-e).toNat
      let pad := if ds.length < k + 1 then List.replicate (k + 1 - ds.length) '0' ++ ds else ds
      sign ++ String.mk (pad.take (pad.length - k)) ++ "." ++ String.mk (pad.drop (pad.length - k))
  | .infty neg => if neg then "-Infinity" else "Infinity"
  | .qnan neg p => (if neg then "-NaN" else "NaN") ++ p
  | .snan neg p => (if neg then "-sNaN" else "sNaN") ++ p

/-- Exact rational value of a finite `Decimal`; 0 for the special
values (which the value-level claims exclude through their
hypotheses). -/
def finValOf : Dec → ℚ
  | .finite neg c e => (if neg then -1 else 1) * (c : ℚ) * (10 : ℚ) ^ e
  | _ => 0

/-- Exact rational value of a finite `Decimal`; `none` for the special
values. -/
def decValueQ : Dec → Option ℚ
  | .finite neg c e => some (finValOf (.finite neg c e))
  | _ => none

/-- Exact rational value of a record's stored `amount` string, as read
back by `Decimal(r["amount"])`. -/
def amountQ (r : Record) : Option ℚ :=
  (decFromString r.amount).bind decValueQ

/-- Number of decimal digits of a natural number (1 for 0).  The first
argument is fuel, always called with at least the number itself. -/
def numDigitsAux : Nat → Nat → Nat
  | 0, _ => 1
  | fuel + 1, n => if n < 10 then 1 else numDigitsAux fuel (n / 10) + 1

/-- Number of decimal digits of a natural number. -/
def numDigits (n : Nat) : Nat := numDigitsAux n n

/-- Model of `Decimal.__add__` under the default context (precision 28,
ROUND_HALF_EVEN, InvalidOperation trapped by nothing in the summary
paths, so a raising addition crashes the operation: `none`).  A
signaling NaN raises; a quiet NaN propagates, the first operand's
preferred; opposite infinities raise, otherwise an infinity absorbs.
Two finite operands are aligned to the smaller exponent and summed
exactly; an exact zero from opposite signs is positive (negative only
when both operands are negative); a result coefficient beyond 28 digits
is rounded half-to-even to 28 digits, raising the exponent (with one
more exact shift when rounding carries to a 29th digit). -/
def decAdd : Dec → Dec → Option Dec
  | .snan _ _, _ => none
  | _, .snan _ _ => none
  | .qnan n p, _ => some (.qnan n p)
  | _, .qnan n p => some (.qnan n p)
  | .infty n1, .infty n2 => if n1 = n2 then some (.infty n1) else none
  | .infty n1, .finite _ _ _ => some (.infty n1)
  | .finite _ _ _, .infty n2 => some (.infty n2)
  | .finite n1 c1 e1, .finite n2 c2 e2 =>
    let e := min e1 e2
    let u1 : Int := (if n1 then -1 else 1) * c1 * 10 ^ (e1 - e).toNat
    let u2 : Int := (if n2 then -1 else 1) * c2 * 10 ^ (e2 - e).toNat
    let s := u1 + u2
    let neg := if s < 0 then true else if s = 0 then n1 && n2 else false
    let c := s.natAbs
    if c < 10 ^ 28 then some (.finite neg c e)
    else
      let k := numDigits c - 28
      let c2 := roundHalfEven c (10 ^ k)
      if c2 < 10 ^ 28 then some (.finite neg c2 (e + k))
      else some (.finite neg (c2 / 10) (e + k + 1))

/-- Does the record store a canonical two-fractional-digit amount (the
form every amount the program itself writes has)? -/
def isCanonAmt (r : Record) : Bool :=
  match decFromString r.amount with
  | some (.finite _ _ e) => e = -2
  | _ => false

/-- Coefficient of the record's stored amount (0 when not finite). -/
def amtCoeff (r : Record) : Nat :=
  match decFromString r.amount with
  | some (.finite _ c _) => c
  | _ => 0

/-- Does a totals-dictionary entry hold a canonical two-fractional-digit
decimal? -/
def isCanonEntry (p : String × Dec) : Bool :=
  match p.2 with
  | .finite _ _ e => e = -2
  | _ => false

/-- Coefficient of a totals-dictionary entry (0 when not finite). -/
def entryCoeff (p : String × Dec) : Nat :=
  match p.2 with
  | .finite _ c _ => c
  | _ => 0

/-! ## Mutation operations

Each interactive operation becomes a pure function over the prompted
inputs (the `.strip()`ped strings the code reads) and the store read by
`read_all`.  The returned store is what the operation persists by
`write_all`; when the code returns before writing, the original store is
returned unchanged. -/

/-- Python `s.startswith(p)`: `p` is a (codepoint-wise) prefix of `s`;
every string starts with the empty string. -/
def startsWithPy (s p : String) : Bool := p.data.isPrefixOf s.data

/-- Outcome of `add_expense`. -/
inductive AddOutcome where
  | invalidDate
  | invalidAmount
  | added (r : Record)
deriving Repr, DecidableEq

/-- Model of `add_expense` (src lines 61-88).  `dateIn`, `categoryIn`,
`amountIn` and `descriptionIn` are the prompted inputs; `today` stands
for `datetime.today().date().strftime(DATE_FORMAT)` (used when the date
is left blank) and `freshId` for `str(uuid.uuid4())`.  A blank category
defaults to `"misc"`; the stored amount is `str` of the quantized
parse.  Validation failure returns before any write. -/
def add_expense (dateIn categoryIn amountIn descriptionIn today freshId : String)
    (rows : List Record) : AddOutcome × List Record :=
  let date := if dateIn = "" then today else dateIn
  if dateIn ≠ "" && (parse_date dateIn).isNone then (.invalidDate, rows)
  else
    let category := if categoryIn = "" then "misc" else categoryIn
    match parse_amount amountIn with
    | none => (.invalidAmount, rows)
    | some a =>
      let row : Record := ⟨freshId, date, category, decStr a, descriptionIn⟩
      (.added row, rows ++ [row])

/-- Outcome of `edit_expense`. -/
inductive EditOutcome where
  | notFound
  | invalidDate
  | invalidAmount
  | updated (r : Record)
deriving Repr, DecidableEq

/-- Model of `edit_expense` (src lines 149-176).  The loop scans the
store in on-disk order for the first record whose `id` starts with the
prefix; a blank input retains the existing field; the new date (after
blank substitution) must parse, and the new amount must parse, each
failure returning before any write; on success the record is updated in
place and the full set re-saved. -/
def edit_expense (pfx dateIn catIn amtIn descIn : String) :
    List Record → EditOutcome × List Record
  | [] => (.notFound, [])
  | r :: rest =>
    if startsWithPy r.id pfx then
      let newDate := if dateIn = "" then r.date else dateIn
      if (parse_date newDate).isNone then (.invalidDate, r :: rest)
      else
        let newCat := if catIn = "" then r.category else catIn
        let newAmt := if amtIn = "" then r.amount else amtIn
        match parse_amount newAmt with
        | none => (.invalidAmount, r :: rest)
        | some a =>
          let newDesc := if descIn = "" then r.description else descIn
          let r' : Record := ⟨r.id, newDate, newCat, decStr a, newDesc⟩
          (.updated r', r' :: rest)
    else
      ((edit_expense pfx dateIn catIn amtIn descIn rest).1,
        r :: (edit_expense pfx dateIn catIn amtIn descIn rest).2)

/-- Model of `delete_expense` (src lines 179-195).  `confirmIn` is the
confirmation string typed at the `Type YES to confirm delete` prompt.
Returns the store the operation leaves persisted, together with the
number of records removed (the size of the match set the code displays,
which is exactly what a confirmed deletion removes). -/
def delete_expense (pfx confirmIn : String) (rows : List Record) :
    List Record × Nat :=
  let found := rows.filter (fun r => startsWithPy r.id pfx)
  if found.isEmpty then (rows, 0)
  else if confirmIn = "YES" then
    (rows.filter (fun r => !(startsWithPy r.id pfx)), found.length)
  else (rows, 0)

/-! ## Query/aggregation operations -/

/-- One step of the `totals` dictionary update in `summary_by_category`:
`totals[cat] = totals.get(cat, Decimal("0.00")) + amt`, on an
association list modelling the Python dict (insertion order, unique
keys, so the first matching entry is the entry).  The addition is the
context addition `decAdd`; its raising cases crash the operation. -/
def updateTotals (totals : List (String × Dec)) (cat : String) (amt : Dec) :
    Option (List (String × Dec)) :=
  match totals with
  | [] => (decAdd (.finite false 0 (-2)) amt).map (fun v => [(cat, v)])
  | p :: rest =>
    if p.1 = cat then (decAdd p.2 amt).map (fun v => (cat, v) :: rest)
    else (updateTotals rest cat amt).map (fun ts => p :: ts)

/-- The accumulation loop of `summary_by_category` (src lines 106-118):
one pass over the store, converting each record's amount with
`Decimal(r["amount"])` (an unparsable amount raises an uncaught
`InvalidOperation`, modelled as `none`) and accumulating per-category
totals with the context addition `decAdd`. -/
def summaryLoop (totals : List (String × Dec)) : List Record → Option (List (String × Dec))
  | [] => some totals
  | r :: rest =>
    match decFromString r.amount with
    | none => none
    | some amt =>
      match updateTotals totals r.category amt with
      | none => none
      | some totals2 => summaryLoop totals2 rest

/-- Model of `summary_by_category` (src lines 106-118): the per-category
totals dictionary, in Python-dict insertion order (the display sort by
descending total permutes entries and is irrelevant to the summed
claims). -/
def summary_by_category (rows : List Record) : Option (List (String × Dec)) :=
  summaryLoop [] rows

/-- Stable insertion of a record into a list sorted ascending by the
`date` string: the record goes before the first strictly later date, so
equal dates keep their original relative order (Python's `sorted` is
stable). -/
def insertByDate (r : Record) : List Record → List Record
  | [] => [r]
  | x :: xs => if x.date < r.date then x :: insertByDate r xs else r :: x :: xs

/-- Stable sort by the `date` string, ascending: the model of
`sorted(filtered, key=lambda x: x["date"])`.  A stable sort is uniquely
determined by the key order and stability, so this insertion sort agrees
with Python's sort. -/
def sortByDate : List Record → List Record
  | [] => []
  | r :: rest => insertByDate r (sortByDate rest)

/-- Outcome of `summary_by_date_range`. -/
inductive RangeOutcome where
  | noExpenses
  | invalidRange
  | noneInRange
  | results (shown : List Record) (total : Dec)
deriving Repr, DecidableEq

/-- The filtering loop of `summary_by_date_range` (src lines 133-139):
each record's stored date is re-parsed (`parse_date(r["date"])`; a
record with an unparsable date makes the comparison `s <= None` raise an
uncaught `TypeError`, modelled as `none`), in-range records are
collected in store order and their amounts accumulated with the context
addition `decAdd` (an in-range record with an unparsable amount likewise
raises). -/
def rangeLoop (s e : PyDate) :
    List Record → List Record → Dec → Option (List Record × Dec)
  | [], filtered, total => some (filtered, total)
  | r :: rest, filtered, total =>
    match parse_date r.date with
    | none => none
    | some d =>
      if dateLe s d && dateLe d e then
        match decFromString r.amount with
        | none => none
        | some amt =>
          match decAdd total amt with
          | none => none
          | some total2 => rangeLoop s e rest (filtered ++ [r]) total2
      else rangeLoop s e rest filtered total

/-- The in-range test applied by the filtering loop: the record's
stored date, re-parsed, lies between the bounds inclusive.  (When the
stored date fails to parse the loop raises instead; this predicate is
only consulted under the loop's success, where every date parses.) -/
def inRange (s e : PyDate) (r : Record) : Bool :=
  match parse_date r.date with
  | some d => dateLe s d && dateLe d e
  | none => false

/-- Model of `summary_by_date_range` (src lines 121-146).  An empty
store returns before the dates are even prompted; an unparsable start or
end date, or a start after the end, all take the single
`Invalid date range.` branch; an empty match set is reported by its own
`No expenses in that range.` branch; otherwise the in-range records are
shown sorted ascending by date string with their accumulated total
(starting from `Decimal("0.00")`). -/
def summary_by_date_range (startIn endIn : String) (rows : List Record) :
    Option RangeOutcome :=
  if rows.isEmpty then some .noExpenses
  else
    match parse_date startIn, parse_date endIn with
    | some s, some e =>
      if dateLt e s then some .invalidRange
      else
        match rangeLoop s e rows [] (.finite false 0 (-2)) with
        | none => none
        | some (filtered, total) =>
          if filtered.isEmpty then some .noneInRange
          else some (.results (sortByDate filtered) total)
    | _, _ => some .invalidRange

/-! ## The backing file: models of `write_all` and `read_all`
(src lines 23-38)

The file is a `csv` excel-dialect table: fields separated by `,`, rows
terminated by `\r\n`, a field quoted with `"` exactly when it contains a
delimiter, quote or line-break character, inner quotes doubled
(QUOTE_MINIMAL / doublequote), read and written with `newline=""` so no
newline translation occurs.  The reader is a character-level state
machine equivalent to the `csv` reader on every text the writer can
produce; configurations the writer never emits (a quote inside an
unquoted field is kept literally as the `csv` reader does; a bare `\r`
not followed by `\n` and text after a closing quote are mapped to
`none`, where the `csv` reader raises or resynthesizes) are documented
at each branch. -/

/-- The field values of a record, in `CSV_FIELDS` order
(`csv.DictWriter.writerow`). -/
def toFields (r : Record) : List String := [r.id, r.date, r.category, r.amount, r.description]

/-- Rebuild a record from a parsed row (`csv.DictReader` zipping the
row with the five field names; any other arity leaves `None`-filled or
rest-keyed dicts that crash the next `writerow`, modelled as a malformed
store). -/
def ofFields : List String → Option Record
  | [i, d, c, a, de] => some ⟨i, d, c, a, de⟩
  | _ => none

/-- QUOTE_MINIMAL: a field is quoted iff it contains the delimiter, the
quote character, or a line-break character. -/
def needsQuote (cs : List Char) : Bool :=
  cs.any (fun c => c = ',' || c = '"' || c = '\r' || c = '\n')

/-- Double every quote character (the `doublequote` escaping of the
`csv` writer). -/
def escapeQuotes : List Char → List Char
  | [] => []
  | c :: rest =>
    if c = '"' then '"' :: '"' :: escapeQuotes rest else c :: escapeQuotes rest

/-- Encode one field with minimal quoting. -/
def encodeField (f : String) : List Char :=
  if needsQuote f.data then '"' :: (escapeQuotes f.data ++ ['"']) else f.data

/-- Encode the fields of a row, comma-separated. -/
def encodeFields : List String → List Char
  | [] => []
  | [f] => encodeField f
  | f :: rest => encodeField f ++ ',' :: encodeFields rest

/-- Encode one row with its `\r\n` terminator. -/
def encodeRow (fs : List String) : List Char := encodeFields fs ++ ['\r', '\n']

/-- Encode a list of records, one row each. -/
def encodeRows : List Record → List Char
  | [] => []
  | r :: rest => encodeRow (toFields r) ++ encodeRows rest

/-- Model of `write_all` (src lines 33-38): the full file contents, a
header row naming the five fields followed by one row per record. -/
def write_all (rows : List Record) : List Char :=
  encodeRow CSV_FIELDS ++ encodeRows rows

/-- Parser mode of the `csv` reader: at the start of a field, inside an
unquoted field, or inside a quoted field. -/
inductive CsvMode where
  | start
  | unq
  | quo
deriving Repr, DecidableEq

/-- A finished row: at the start of a field a pending empty field counts
only when the row already has fields (a fully blank line yields the
empty row `[]`, which `csv.DictReader` skips). -/
def endBlankRow (row : List String) : List (List String) :=
  if row.isEmpty then [] else [row ++ [""]]

/-- The `csv` reader as a character-level state machine over the file
contents: current mode, accumulated field, accumulated row, accumulated
rows.  Branches returning `none` are configurations the excel-dialect
reader rejects (a bare `\r` inside a line: "new-line character seen in
unquoted field") or that the writer can never produce (text following a
closing quote, end of input inside a quoted field). -/
def csvRun : CsvMode → List Char → List Char → List String → List (List String) →
    Option (List (List String))
  | .start, [], _fld, row, acc => some (acc ++ endBlankRow row)
  | .start, c :: cs, _fld, row, acc =>
    if c = ',' then csvRun .start cs [] (row ++ [""]) acc
    else if c = '"' then csvRun .quo cs [] row acc
    else if c = '\n' then csvRun .start cs [] [] (acc ++ endBlankRow row)
    else if c = '\r' then
      match cs with
      | '\n' :: cs2 => csvRun .start cs2 [] [] (acc ++ endBlankRow row)
      | _ => none
    else csvRun .unq cs [c] row acc
  | .unq, [], fld, row, acc => some (acc ++ [row ++ [String.mk fld]])
  | .unq, c :: cs, fld, row, acc =>
    if c = ',' then csvRun .start cs [] (row ++ [String.mk fld]) acc
    else if c = '\n' then csvRun .start cs [] [] (acc ++ [row ++ [String.mk fld]])
    else if c = '\r' then
      match cs with
      | '\n' :: cs2 => csvRun .start cs2 [] [] (acc ++ [row ++ [String.mk fld]])
      | _ => none
    else csvRun .unq cs (fld ++ [c]) row acc
  | .quo, [], _fld, _row, _acc => none
  | .quo, c :: cs, fld, row, acc =>
    if c = '"' then
      match cs with
      | [] => some (acc ++ [row ++ [String.mk fld]])
      | d :: cs2 =>
        if d = '"' then csvRun .quo cs2 (fld ++ ['"']) row acc
        else if d = ',' then csvRun .start cs2 [] (row ++ [String.mk fld]) acc
        else if d = '\n' then csvRun .start cs2 [] [] (acc ++ [row ++ [String.mk fld]])
        else if d = '\r' then
          match cs2 with
          | '\n' :: cs3 => csvRun .start cs3 [] [] (acc ++ [row ++ [String.mk fld]])
          | _ => none
        else none
    else csvRun .quo cs (fld ++ [c]) row acc

/-- Model of `read_all` (src lines 23-30): parse the file, skip blank
rows (`csv.DictReader` skips `row == []`), take the first row as the
header (which must be the five-field schema for the store to be usable)
and rebuild the records.  An empty file yields no records. -/
def read_all (text : List Char) : Option (List Record) :=
  match csvRun .start text [] [] [] with
  | none => none
  | some parsed =>
    match parsed.filter (fun row => !row.isEmpty) with
    | [] => some []
    | header :: body =>
      if header = CSV_FIELDS then body.mapM ofFields else none

/-! ## Helper facts about digit characters -/

/-- A digit character has code point between 48 and 57. -/
theorem char_digit_toNat {c : Char} (h : c.isDigit = true) :
    48 ≤ c.toNat ∧ c.toNat ≤ 57 := by
  simp only [Char.isDigit, Bool.and_eq_true, decide_eq_true_eq, ge_iff_le] at h
  obtain ⟨h1, h2⟩ := h
  rw [UInt32.le_def, BitVec.le_def] at h1 h2
  exact ⟨h1, h2⟩

/-- The value of a digit character is at most 9. -/
theorem digitVal_le_nine {c : Char} (h : c.isDigit = true) : digitVal c ≤ 9 := by
  have := char_digit_toNat h
  unfold digitVal
  omega

/-- The value of a nonzero digit character is at least 1. -/
theorem one_le_digitVal {c : Char} (h : c.isDigit = true) (h0 : c ≠ '0') :
    1 ≤ digitVal c := by
  have h1 := char_digit_toNat h
  have h2 : c.toNat ≠ 48 := fun hv => h0 (Char.ext (UInt32.ext hv))
  unfold digitVal
  omega

/-- A month accepted by the `%m` directive is between 1 and 12. -/
theorem monthDash_bounds {cs rest : List Char} {m : Nat}
    (h : monthDash cs = some (m, rest)) : 1 ≤ m ∧ m ≤ 12 := by
  unfold monthDash at h
  split at h
  case _ a b cs' =>
    split at h
    case isTrue hc =>
      injection h with h'
      cases h'
      simp only [Bool.and_eq_true, Bool.or_eq_true, decide_eq_true_eq] at hc
      obtain ⟨hab, -⟩ := hc
      rcases hab with ⟨ha, hb⟩ | ⟨⟨ha, hb⟩, hb0⟩
      · subst ha
        rcases hb with (hb | hb) | hb <;> subst hb <;> decide
      · subst ha
        have h9 := digitVal_le_nine hb
        have h1 := one_le_digitVal hb hb0
        simp only [show digitVal '0' = 0 from rfl]
        omega
    case isFalse hc =>
      split at h
      case isTrue hc2 =>
        injection h with h'
        cases h'
        simp only [Bool.and_eq_true, decide_eq_true_eq] at hc2
        obtain ⟨⟨hd, hne⟩, -⟩ := hc2
        have h9 := digitVal_le_nine hd
        have h1 := one_le_digitVal hd hne
        omega
      case isFalse => exact absurd h (by simp)
  case _ => exact absurd h (by simp)

/-- A day accepted by the `%d` directive is at least 1. -/
theorem dayEnd_pos {cs : List Char} {d : Nat} (h : dayEnd cs = some d) : 1 ≤ d := by
  unfold dayEnd at h
  split at h
  case _ a =>
    split at h
    case isTrue hc =>
      injection h with h'
      cases h'
      simp only [Bool.and_eq_true, decide_eq_true_eq] at hc
      exact one_le_digitVal hc.1 hc.2
    case isFalse => exact absurd h (by simp)
  case _ a b =>
    split at h
    case isTrue hc =>
      injection h with h'
      cases h'
      simp only [Bool.and_eq_true, Bool.or_eq_true, decide_eq_true_eq] at hc
      rcases hc with (⟨ha, -⟩ | ⟨ha, hb⟩) | ⟨⟨ha, hb⟩, hb0⟩
      · subst ha
        simp only [show digitVal '3' = 3 from rfl]
        omega
      · rcases ha with ha | ha <;> subst ha
        · simp only [show digitVal '1' = 1 from rfl]
          omega
        · simp only [show digitVal '2' = 2 from rfl]
          omega
      · subst ha
        have h1 := one_le_digitVal hb hb0
        simp only [show digitVal '0' = 0 from rfl]
        omega
    case isFalse => exact absurd h (by simp)
  case _ => exact absurd h (by simp)

/-- Soundness of the date parser: an accepted string denotes a valid
calendar date. -/
theorem parse_date_valid {s : String} {y m d : Nat}
    (h : parse_date s = some ⟨y, m, d⟩) :
    1 ≤ y ∧ 1 ≤ m ∧ m ≤ 12 ∧ 1 ≤ d ∧ d ≤ daysInMonth y m := by
  unfold parse_date at h
  split at h
  case _ c1 c2 c3 c4 rest hs =>
    split at h
    case isTrue =>
      split at h
      case _ m' rest2 hmd =>
        split at h
        case _ d' hde =>
          split at h
          case isTrue hguard =>
            injection h with h'
            injection h' with hy hm hd2
            subst hy
            subst hm
            subst hd2
            simp only [Bool.and_eq_true, decide_eq_true_eq] at hguard
            have hmb := monthDash_bounds hmd
            have hdb := dayEnd_pos hde
            exact ⟨hguard.1, hmb.1, hmb.2, hdb, hguard.2⟩
          case isFalse => exact absurd h (by simp)
        case _ => exact absurd h (by simp)
      case _ => exact absurd h (by simp)
    case isFalse => exact absurd h (by simp)
  case _ => exact absurd h (by simp)

/-! ## Claim C2: strictness of `parse_date` -/

/-- C2 counterexample: the claim says `parseDate("2024-2-5")` is invalid
because the strict `YYYY-MM-DD` format requires zero padding; but
`strptime`'s `%m`/`%d` directives accept one- or two-digit fields, so
the code parses `"2024-2-5"` to February 5, 2024. -/
theorem c2_counterexample : parse_date "2024-2-5" = some ⟨2024, 2, 5⟩ := by decide

/-- C2 (amended): `parse_date` accepts a four-digit year, a dash, a one-
or two-digit month, a dash and a one- or two-digit day with nothing
following (zero padding is NOT required), and validates the calendar
date: `"2024-02-30"` is invalid (no such date), `"2024-02-05"` and the
unpadded `"2024-2-5"` both parse to February 5, 2024, and every accepted
string denotes a valid calendar date (year ≥ 1, month 1-12, day within
the month). -/
theorem c2_parse_date : parse_date "2024-02-30" = none ∧
    parse_date "2024-02-05" = some ⟨2024, 2, 5⟩ ∧
    parse_date "2024-2-5" = some ⟨2024, 2, 5⟩ ∧
    ∀ s y m d, parse_date s = some ⟨y, m, d⟩ →
      1 ≤ y ∧ 1 ≤ m ∧ m ≤ 12 ∧ 1 ≤ d ∧ d ≤ daysInMonth y m :=
  ⟨by decide, by decide, by decide, fun _ _ _ _ h => parse_date_valid h⟩

/-- C2 witness: the soundness conjunct of `c2_parse_date` applied at the
concrete accepted string `"2024-12-31"`. -/
theorem c2_parse_date_witness :
    1 ≤ 2024 ∧ 1 ≤ 12 ∧ 12 ≤ 12 ∧ 1 ≤ 31 ∧ 31 ≤ daysInMonth 2024 12 :=
  c2_parse_date.2.2.2 "2024-12-31" 2024 12 31 (by decide)

/-! ## Claim C8: `parse_amount` -/

/-- C8 counterexample: the claim says every input yields either a finite
decimal quantized to 2 fractional digits or `invalid`; but on the input
`"nan"` the code returns `Decimal("NaN")` (a quiet NaN propagates
through `quantize` without trapping), which is neither. -/
theorem c8_counterexample :
    parse_amount "nan" = some (.qnan false "") ∧
    parse_amount "nan" ≠ none ∧
    isFiniteDec (parse_amount "nan") = false := by decide

/-- C8 (amended): for every input string `parse_amount` returns
`invalid` (`none`), a NaN (for NaN-literal inputs such as `"nan"`), or a
finite decimal quantized to exactly 2 fractional digits (exponent -2)
under ROUND_HALF_EVEN; `"abc"` is invalid, and the half-even rule
quantizes `"12.345"` down to `12.34` and `"12.355"` up to `12.36`; no
binary floating point is involved anywhere in the model. -/
theorem c8_parse_amount :
    parse_amount "abc" = none ∧
    parse_amount "12.345" = some (.finite false 1234 (-2)) ∧
    parse_amount "12.355" = some (.finite false 1236 (-2)) ∧
    ∀ s, parse_amount s = none ∨
      (∃ neg c, parse_amount s = some (.finite neg c (-2))) ∨
      (∃ neg p, parse_amount s = some (.qnan neg p)) := by
  refine ⟨by decide, by decide, by decide, fun s => ?_⟩
  unfold parse_amount
  match hd : decFromString s with
  | none => exact Or.inl rfl
  | some (.finite neg c e) =>
    simp only [quantize01]
    split
    · exact Or.inr (Or.inl ⟨neg, rescale01 c e, rfl⟩)
    · exact Or.inl rfl
  | some (.infty neg) => exact Or.inl rfl
  | some (.qnan neg p) => exact Or.inr (Or.inr ⟨neg, p, rfl⟩)
  | some (.snan neg p) => exact Or.inl rfl

/-! ## Claim C3: add-then-load -/

/-- C3: on any store, adding date `2024-01-01`, category `food`, amount
`9.999`, description `lunch` with a fresh id appends exactly one new
record whose stored amount is the normalized string `"10.00"`, growing
the store by exactly 1, with the new record last and its id distinct
from every existing id. -/
theorem c3_add_then_load (rows : List Record) (today freshId : String)
    (hfresh : freshId ∉ rows.map Record.id) :
    add_expense "2024-01-01" "food" "9.999" "lunch" today freshId rows =
      (.added ⟨freshId, "2024-01-01", "food", "10.00", "lunch"⟩,
        rows ++ [⟨freshId, "2024-01-01", "food", "10.00", "lunch"⟩]) ∧
    (add_expense "2024-01-01" "food" "9.999" "lunch" today freshId rows).2.length =
      rows.length + 1 ∧
    ∀ r ∈ rows, r.id ≠ freshId := by
  have h1 : add_expense "2024-01-01" "food" "9.999" "lunch" today freshId rows =
      (.added ⟨freshId, "2024-01-01", "food", "10.00", "lunch"⟩,
        rows ++ [⟨freshId, "2024-01-01", "food", "10.00", "lunch"⟩]) := rfl
  refine ⟨h1, ?_, fun r hr heq => ?_⟩
  · rw [h1]
    simp
  · exact hfresh (heq ▸ List.mem_map_of_mem Record.id hr)

/-- C3 witness: the add at a concrete one-record store with a fresh
id. -/
theorem c3_add_then_load_witness :
    add_expense "2024-01-01" "food" "9.999" "lunch" "2025-12-31" "b1"
        [⟨"a1", "2024-01-01", "misc", "1.00", "x"⟩] =
      (.added ⟨"b1", "2024-01-01", "food", "10.00", "lunch"⟩,
        [⟨"a1", "2024-01-01", "misc", "1.00", "x"⟩,
          ⟨"b1", "2024-01-01", "food", "10.00", "lunch"⟩]) :=
  (c3_add_then_load [⟨"a1", "2024-01-01", "misc", "1.00", "x"⟩] "2025-12-31" "b1"
    (by decide)).1

/-! ## Claim C4: no persistence on validation failure -/

/-- Helper for C4: whenever `edit_expense` reports a validation failure,
the store it leaves behind is the one it was given. -/
theorem edit_expense_fail_frame (pfx dIn cIn aIn deIn : String) :
    ∀ rows : List Record,
      (edit_expense pfx dIn cIn aIn deIn rows).1 = .invalidDate ∨
        (edit_expense pfx dIn cIn aIn deIn rows).1 = .invalidAmount →
      (edit_expense pfx dIn cIn aIn deIn rows).2 = rows := by
  intro rows
  induction rows with
  | nil => intro h; rfl
  | cons r rest ih =>
    intro h
    by_cases hm : startsWithPy r.id pfx = true
    · by_cases hd : (parse_date (if dIn = "" then r.date else dIn)).isNone = true
      · simp only [edit_expense, hm, hd, if_true]
      · simp only [edit_expense, hm, if_true, hd, if_false]
        match hp : parse_amount (if aIn = "" then r.amount else aIn) with
        | none => simp
        | some a =>
          simp only [edit_expense, hm, hd, hp, if_true, if_false] at h
          rcases h with h | h <;> exact absurd h (by simp)
    · have hm' : startsWithPy r.id pfx = false := by
        cases hmv : startsWithPy r.id pfx
        · rfl
        · exact absurd hmv hm
      simp only [edit_expense, hm', Bool.false_eq_true, if_false] at h ⊢
      rw [ih h]

/-- C4: whenever `add_expense` or `edit_expense` rejects its input with
a validation error (malformed date or malformed amount), no save is
performed: the resulting store is exactly the prior store.  Moreover a
nonblank unparsable date does produce the date rejection, and an
unparsable amount (with the date accepted) the amount rejection. -/
theorem c4_validation_no_persist
    (dateIn catIn amtIn descIn today freshId pfx : String) (rows : List Record) :
    ((add_expense dateIn catIn amtIn descIn today freshId rows).1 = .invalidDate ∨
        (add_expense dateIn catIn amtIn descIn today freshId rows).1 = .invalidAmount →
      (add_expense dateIn catIn amtIn descIn today freshId rows).2 = rows) ∧
    (dateIn ≠ "" → parse_date dateIn = none →
      add_expense dateIn catIn amtIn descIn today freshId rows = (.invalidDate, rows)) ∧
    (parse_amount amtIn = none → (dateIn = "" ∨ (parse_date dateIn).isSome) →
      add_expense dateIn catIn amtIn descIn today freshId rows = (.invalidAmount, rows)) ∧
    ((edit_expense pfx dateIn catIn amtIn descIn rows).1 = .invalidDate ∨
        (edit_expense pfx dateIn catIn amtIn descIn rows).1 = .invalidAmount →
      (edit_expense pfx dateIn catIn amtIn descIn rows).2 = rows) := by
  refine ⟨?_, ?_, ?_, edit_expense_fail_frame pfx dateIn catIn amtIn descIn rows⟩
  · intro h
    by_cases hd : (dateIn ≠ "" && (parse_date dateIn).isNone) = true
    · simp only [add_expense, hd, if_true]
    · simp only [add_expense, hd, if_false] at h ⊢
      match hp : parse_amount amtIn with
      | none => simp
      | some a =>
        simp only [hp] at h
        rcases h with h | h <;> exact absurd h (by simp)
  · intro hne hpd
    have hc : (dateIn ≠ "" && (parse_date dateIn).isNone) = true := by
      simp [hne, hpd]
    simp only [add_expense, hc, if_true]
  · intro hpa hdate
    have hc : (dateIn ≠ "" && (parse_date dateIn).isNone) = false := by
      rcases hdate with h | h
      · simp [h]
      · cases hv : parse_date dateIn with
        | none => rw [hv] at h; exact absurd h (by simp)
        | some v => simp [hv]
    simp only [add_expense, hc, Bool.false_eq_true, if_false, hpa]

/-- C4 witness: a rejected add (bad date, then bad amount) at a concrete
store leaves it unchanged. -/
theorem c4_validation_no_persist_witness :
    add_expense "2024-13-45" "c" "1.00" "d" "t" "f"
        [⟨"a1", "2024-01-01", "misc", "1.00", "x"⟩] =
      (.invalidDate, [⟨"a1", "2024-01-01", "misc", "1.00", "x"⟩]) ∧
    add_expense "2024-01-02" "c" "abc" "d" "t" "f"
        [⟨"a1", "2024-01-01", "misc", "1.00", "x"⟩] =
      (.invalidAmount, [⟨"a1", "2024-01-01", "misc", "1.00", "x"⟩]) :=
  ⟨(c4_validation_no_persist "2024-13-45" "c" "1.00" "d" "t" "f" ""
      [⟨"a1", "2024-01-01", "misc", "1.00", "x"⟩]).2.1 (by decide) (by decide),
    (c4_validation_no_persist "2024-01-02" "c" "abc" "d" "t" "f" ""
      [⟨"a1", "2024-01-01", "misc", "1.00", "x"⟩]).2.2.1 (by decide)
      (Or.inr (by decide))⟩

/-! ## Claim C1: delete by id prefix -/

/-- C1: a confirmed delete removes exactly the records whose id starts
with the prefix — the persisted store is the order-preserving filter of
the non-matching records (hence a sublist of the original, every
non-matching record kept, every kept record non-matching) and the
reported count is the number of matching records; an unconfirmed delete
mutates nothing; and zero matches leave the store unchanged with count
0. -/
theorem c1_delete_matching (pfx confirmIn : String) (rows : List Record) :
    (delete_expense pfx "YES" rows).1 =
        rows.filter (fun r => !(startsWithPy r.id pfx)) ∧
    (delete_expense pfx "YES" rows).2 =
        (rows.filter (fun r => startsWithPy r.id pfx)).length ∧
    ((delete_expense pfx "YES" rows).1).Sublist rows ∧
    (∀ r ∈ rows, startsWithPy r.id pfx = false → r ∈ (delete_expense pfx "YES" rows).1) ∧
    (∀ r ∈ (delete_expense pfx "YES" rows).1, startsWithPy r.id pfx = false) ∧
    (confirmIn ≠ "YES" → delete_expense pfx confirmIn rows = (rows, 0)) ∧
    (rows.filter (fun r => startsWithPy r.id pfx) = [] →
      delete_expense pfx "YES" rows = (rows, 0)) := by
  by_cases hE : (rows.filter (fun r => startsWithPy r.id pfx)).isEmpty = true
  · have hnil : rows.filter (fun r => startsWithPy r.id pfx) = [] :=
      List.isEmpty_iff.mp hE
    have hall : ∀ r ∈ rows, startsWithPy r.id pfx = false := by
      intro r hr
      cases hv : startsWithPy r.id pfx
      · rfl
      · have : r ∈ rows.filter (fun r => startsWithPy r.id pfx) :=
          List.mem_filter.mpr ⟨hr, hv⟩
        rw [hnil] at this
        exact absurd this (List.not_mem_nil r)
    have hid : rows.filter (fun r => !(startsWithPy r.id pfx)) = rows :=
      List.filter_eq_self.mpr (fun r hr => by rw [hall r hr]; rfl)
    have hdel : ∀ c : String, delete_expense pfx c rows = (rows, 0) := by
      intro c
      simp only [delete_expense, hE, if_true]
    refine ⟨?_, ?_, ?_, ?_, ?_, fun _ => hdel confirmIn, fun _ => hdel "YES"⟩
    · rw [hdel "YES", hid]
    · rw [hdel "YES", hnil]
      rfl
    · rw [hdel "YES"]
    · intro r hr _
      rw [hdel "YES"]
      exact hr
    · intro r hrf
      rw [hdel "YES"] at hrf
      exact hall r hrf
  · have hE2 : (rows.filter (fun r => startsWithPy r.id pfx)).isEmpty = false := by
      cases hv : (rows.filter (fun r => startsWithPy r.id pfx)).isEmpty
      · rfl
      · exact absurd hv hE
    have hdel : delete_expense pfx "YES" rows =
        (rows.filter (fun r => !(startsWithPy r.id pfx)),
          (rows.filter (fun r => startsWithPy r.id pfx)).length) := by
      simp only [delete_expense, hE2, Bool.false_eq_true, if_false]
      simp
    have hdel2 : confirmIn ≠ "YES" → delete_expense pfx confirmIn rows = (rows, 0) := by
      intro hc
      simp only [delete_expense, hE2, Bool.false_eq_true, if_false]
      rw [if_neg hc]
    refine ⟨?_, ?_, ?_, ?_, ?_, hdel2, ?_⟩
    · rw [hdel]
    · rw [hdel]
    · rw [hdel]
      exact List.filter_sublist rows
    · intro r hr hf
      rw [hdel]
      refine List.mem_filter.mpr ⟨hr, ?_⟩
      rw [hf]
      rfl
    · intro r hrf
      rw [hdel] at hrf
      have h2 := (List.mem_filter.mp hrf).2
      cases hv : startsWithPy r.id pfx
      · rfl
      · rw [hv] at h2
        exact absurd h2 (by simp)
    · intro hn
      rw [hn] at hE2
      exact absurd hE2 (by simp)

/-- C1 witness: the unconfirmed branch and the zero-match branch of
`c1_delete_matching` at a concrete two-record store. -/
theorem c1_delete_matching_witness :
    delete_expense "ab" "no" [⟨"ab1", "2024-01-01", "misc", "1.00", "x"⟩,
        ⟨"xy2", "2024-01-02", "misc", "2.00", "y"⟩] =
      ([⟨"ab1", "2024-01-01", "misc", "1.00", "x"⟩,
        ⟨"xy2", "2024-01-02", "misc", "2.00", "y"⟩], 0) ∧
    delete_expense "zz" "YES" [⟨"ab1", "2024-01-01", "misc", "1.00", "x"⟩,
        ⟨"xy2", "2024-01-02", "misc", "2.00", "y"⟩] =
      ([⟨"ab1", "2024-01-01", "misc", "1.00", "x"⟩,
        ⟨"xy2", "2024-01-02", "misc", "2.00", "y"⟩], 0) :=
  ⟨(c1_delete_matching "ab" "no" [⟨"ab1", "2024-01-01", "misc", "1.00", "x"⟩,
      ⟨"xy2", "2024-01-02", "misc", "2.00", "y"⟩]).2.2.2.2.2.1 (by decide),
    (c1_delete_matching "zz" "YES" [⟨"ab1", "2024-01-01", "misc", "1.00", "x"⟩,
      ⟨"xy2", "2024-01-02", "misc", "2.00", "y"⟩]).2.2.2.2.2.2 (by decide)⟩

/-! ## Claim C10: the empty prefix matches everything -/

/-- Helper: `edit_expense` on a store whose head matches the prefix acts
on that head: it never reports `NotFound`, leaves the tail untouched,
and the record in head position keeps its id. -/
theorem edit_expense_cons_match (pfx dIn cIn aIn deIn : String) (r : Record)
    (rest : List Record) (hm : startsWithPy r.id pfx = true) :
    (edit_expense pfx dIn cIn aIn deIn (r :: rest)).1 ≠ .notFound ∧
    ∃ r2, (edit_expense pfx dIn cIn aIn deIn (r :: rest)).2 = r2 :: rest ∧
      r2.id = r.id := by
  by_cases hd : (parse_date (if dIn = "" then r.date else dIn)).isNone = true
  · constructor
    · simp [edit_expense, hm, hd]
    · exact ⟨r, by simp [edit_expense, hm, hd], rfl⟩
  · have hd2 : (parse_date (if dIn = "" then r.date else dIn)).isNone = false := by
      cases hv : (parse_date (if dIn = "" then r.date else dIn)).isNone
      · rfl
      · exact absurd hv hd
    match hp : parse_amount (if aIn = "" then r.amount else aIn) with
    | none =>
      constructor
      · simp [edit_expense, hm, hd2, hp]
      · exact ⟨r, by simp [edit_expense, hm, hd2, hp], rfl⟩
    | some a =>
      constructor
      · simp [edit_expense, hm, hd2, hp]
      · refine ⟨⟨r.id, if dIn = "" then r.date else dIn,
          if cIn = "" then r.category else cIn, decStr a,
          if deIn = "" then r.description else deIn⟩,
          by simp [edit_expense, hm, hd2, hp], rfl⟩

/-- C10: the empty string is a prefix of every id, so on a non-empty
store a confirmed delete with the empty prefix removes every record
(returning the empty store and the full count), and edit with the empty
prefix targets the first record in on-disk order: it never reports
`NotFound`, it leaves the tail untouched, and the record it acts on is
the head (same id). -/
theorem c10_empty_prefix_matches_all (r : Record) (rest : List Record)
    (dIn cIn aIn deIn : String) :
    startsWithPy r.id "" = true ∧
    (r :: rest).filter (fun x => startsWithPy x.id "") = r :: rest ∧
    delete_expense "" "YES" (r :: rest) = ([], (r :: rest).length) ∧
    (edit_expense "" dIn cIn aIn deIn (r :: rest)).1 ≠ .notFound ∧
    (∃ r2, (edit_expense "" dIn cIn aIn deIn (r :: rest)).2 = r2 :: rest ∧
      r2.id = r.id) := by
  have hsw : ∀ x : Record, startsWithPy x.id "" = true := by
    intro x
    simp [startsWithPy]
  have hfil : (r :: rest).filter (fun x => startsWithPy x.id "") = r :: rest :=
    List.filter_eq_self.mpr (fun x _ => hsw x)
  have hfil2 : (r :: rest).filter (fun x => !(startsWithPy x.id "")) = [] := by
    rw [List.filter_eq_nil_iff]
    intro x _
    rw [hsw x]
    simp
  have hedit := edit_expense_cons_match "" dIn cIn aIn deIn r rest (hsw r)
  refine ⟨hsw r, hfil, ?_, hedit.1, hedit.2⟩
  simp only [delete_expense, hfil, hfil2, List.isEmpty_cons, Bool.false_eq_true, if_false]
  simp

/-! ## Claim C5: edit updates the first match in place -/

/-- C5: when no record's id starts with the prefix, edit reports
`NotFound` and persists exactly the prior store; when the store is
`pre ++ r :: post` with nothing in `pre` matching and `r` matching, a
successful edit re-saves exactly `pre ++ r2 :: post` where `r2` is `r`
with each blank field argument retaining the existing value, the parsed
amount restringified, and the id unchanged — every other record
byte-for-byte in its original position. -/
theorem c5_edit_first_match (pfx dIn cIn aIn deIn : String) :
    (∀ rows : List Record, (∀ x ∈ rows, startsWithPy x.id pfx = false) →
      edit_expense pfx dIn cIn aIn deIn rows = (.notFound, rows)) ∧
    (∀ pre (r : Record) post, (∀ x ∈ pre, startsWithPy x.id pfx = false) →
      startsWithPy r.id pfx = true →
      ∀ dt, parse_date (if dIn = "" then r.date else dIn) = some dt →
      ∀ a, parse_amount (if aIn = "" then r.amount else aIn) = some a →
      edit_expense pfx dIn cIn aIn deIn (pre ++ r :: post) =
        (.updated ⟨r.id, if dIn = "" then r.date else dIn,
            if cIn = "" then r.category else cIn, decStr a,
            if deIn = "" then r.description else deIn⟩,
          pre ++ ⟨r.id, if dIn = "" then r.date else dIn,
            if cIn = "" then r.category else cIn, decStr a,
            if deIn = "" then r.description else deIn⟩ :: post)) := by
  constructor
  · intro rows
    induction rows with
    | nil => intro _; rfl
    | cons x rest ih =>
      intro hall
      have hx : startsWithPy x.id pfx = false := hall x (List.mem_cons_self x rest)
      have ihr := ih (fun y hy => hall y (List.mem_cons_of_mem x hy))
      simp only [edit_expense, hx, Bool.false_eq_true, if_false, ihr]
  · intro pre
    induction pre with
    | nil =>
      intro r post _ hm dt hdt a hpa
      have hd2 : (parse_date (if dIn = "" then r.date else dIn)).isNone = false := by
        rw [hdt]
        rfl
      simp only [List.nil_append, edit_expense, hm, if_true, hd2, Bool.false_eq_true,
        if_false, hpa]
    | cons x pre2 ih =>
      intro r post hpre hm dt hdt a hpa
      have hx : startsWithPy x.id pfx = false := hpre x (List.mem_cons_self x pre2)
      have ihr := ih r post (fun y hy => hpre y (List.mem_cons_of_mem x hy)) hm dt hdt a hpa
      simp only [List.cons_append, edit_expense, hx, Bool.false_eq_true, if_false,
        List.append_eq, ihr]

/-- C5 witness: a concrete three-record store where the middle record is
the first (and only) match; the blank date, amount and description
inputs retain the old values and the category is replaced. -/
theorem c5_edit_first_match_witness :
    edit_expense "ab" "" "food" "2.5" "" [⟨"zz9", "2024-01-01", "misc", "1.00", "a"⟩,
        ⟨"ab1", "2024-02-03", "misc", "3.00", "b"⟩,
        ⟨"cd7", "2024-03-04", "misc", "4.00", "c"⟩] =
      (.updated ⟨"ab1", "2024-02-03", "food", "2.50", "b"⟩,
        [⟨"zz9", "2024-01-01", "misc", "1.00", "a"⟩,
          ⟨"ab1", "2024-02-03", "food", "2.50", "b"⟩,
          ⟨"cd7", "2024-03-04", "misc", "4.00", "c"⟩]) := by
  have h := (c5_edit_first_match "ab" "" "food" "2.5" "").2
    [⟨"zz9", "2024-01-01", "misc", "1.00", "a"⟩]
    ⟨"ab1", "2024-02-03", "misc", "3.00", "b"⟩
    [⟨"cd7", "2024-03-04", "misc", "4.00", "c"⟩]
    (by decide) (by decide) ⟨2024, 2, 3⟩ (by decide)
    (.finite false 250 (-2)) (by decide)
  exact h.trans (by decide)

/-! ## Claim C6: the category summary invariant -/

/-- The signed value rebuilt from the sign bit the context addition
chooses and the absolute value of the signed sum is the signed sum
itself (any tie-break bit `n` for a zero sum gives value 0). -/
theorem signVal_eq (s : Int) (n : Bool) :
    ((if (if s < 0 then true else if s = 0 then n else false) = true then (-1 : ℚ) else 1) *
        (s.natAbs : ℚ)) = (s : ℚ) := by
  rcases lt_trichotomy s 0 with h | h | h
  · rw [if_pos h, if_pos rfl]
    rw [Int.cast_natAbs, abs_of_neg h]
    push_cast
    ring
  · simp [h]
  · rw [if_neg (by omega : ¬ s < 0), if_neg (by omega : ¬ s = 0)]
    simp only [Bool.false_eq_true, if_false]
    rw [Int.cast_natAbs, abs_of_pos h]
    ring

/-- Context addition of two finite decimals with the same exponent whose
signed sum stays below 28 digits: no alignment shift and no rounding
happen. -/
theorem decAdd_same_exp_small (n1 n2 : Bool) (c1 c2 : Nat) (e : Int)
    (h : ((if n1 then (-1 : Int) else 1) * c1 + (if n2 then (-1 : Int) else 1) * c2).natAbs
      < 10 ^ 28) :
    decAdd (.finite n1 c1 e) (.finite n2 c2 e) =
      some (.finite
        (if ((if n1 then (-1 : Int) else 1) * c1 + (if n2 then (-1 : Int) else 1) * c2) < 0
          then true
          else if ((if n1 then (-1 : Int) else 1) * c1 +
              (if n2 then (-1 : Int) else 1) * c2) = 0
            then n1 && n2 else false)
        ((if n1 then (-1 : Int) else 1) * c1 +
          (if n2 then (-1 : Int) else 1) * c2).natAbs e) := by
  simp only [decAdd, min_self, sub_self, Int.toNat_zero, pow_zero, mul_one]
  rw [if_pos h]

/-- Context addition below the precision budget is exact: two finite
decimals with the same exponent whose coefficients sum below 10^28 add
to a finite decimal with that exponent, a coefficient bounded by the
coefficient sum, and the exact rational sum as value. -/
theorem decAdd_canon (n1 n2 : Bool) (c1 c2 : Nat) (e : Int) (h : c1 + c2 < 10 ^ 28) :
    ∃ n3 c3, decAdd (.finite n1 c1 e) (.finite n2 c2 e) = some (.finite n3 c3 e) ∧
      c3 ≤ c1 + c2 ∧
      finValOf (.finite n3 c3 e) =
        finValOf (.finite n1 c1 e) + finValOf (.finite n2 c2 e) := by
  have habs : ((if n1 then (-1 : Int) else 1) * c1 +
      (if n2 then (-1 : Int) else 1) * c2).natAbs ≤ c1 + c2 := by
    calc ((if n1 then (-1 : Int) else 1) * c1 + (if n2 then (-1 : Int) else 1) * c2).natAbs
        ≤ ((if n1 then (-1 : Int) else 1) * c1).natAbs +
          ((if n2 then (-1 : Int) else 1) * c2).natAbs := Int.natAbs_add_le _ _
      _ = c1 + c2 := by cases n1 <;> cases n2 <;> simp [Int.natAbs_mul]
  refine ⟨_, _, decAdd_same_exp_small n1 n2 c1 c2 e (lt_of_le_of_lt habs h), habs, ?_⟩
  simp only [finValOf]
  rw [signVal_eq]
  have hcast : (((if n1 then (-1 : Int) else 1) * c1 +
      (if n2 then (-1 : Int) else 1) * c2 : Int) : ℚ) =
      (if n1 then (-1 : ℚ) else 1) * c1 + (if n2 then (-1 : ℚ) else 1) * c2 := by
    cases n1 <;> cases n2 <;> push_cast <;> ring
  rw [hcast]
  ring

/-- A canonical totals entry is a finite decimal with exponent -2, and
its coefficient is `entryCoeff`. -/
theorem isCanonEntry_elim {p : String × Dec} (h : isCanonEntry p = true) :
    ∃ n c, p.2 = .finite n c (-2) ∧ entryCoeff p = c := by
  rcases p with ⟨k, v⟩
  cases v with
  | finite n c e =>
    have h2 : e = -2 := by simpa [isCanonEntry] using h
    subst h2
    exact ⟨n, c, rfl, rfl⟩
  | infty n => simp [isCanonEntry] at h
  | qnan n pl => simp [isCanonEntry] at h
  | snan n pl => simp [isCanonEntry] at h

/-- A canonical record amount parses to a finite decimal with exponent
-2, with `amtCoeff` its coefficient and `amountQ` its exact value. -/
theorem isCanonAmt_elim {r : Record} (h : isCanonAmt r = true) :
    ∃ n c, decFromString r.amount = some (.finite n c (-2)) ∧ amtCoeff r = c ∧
      amountQ r = some (finValOf (.finite n c (-2))) := by
  unfold isCanonAmt at h
  rcases hd : decFromString r.amount with _ | v
  · rw [hd] at h
    simp at h
  · rw [hd] at h
    cases v with
    | finite n c e =>
      have h2 : e = -2 := by simpa using h
      subst h2
      refine ⟨n, c, rfl, ?_, ?_⟩
      · unfold amtCoeff
        rw [hd]
      · unfold amountQ
        rw [hd]
        rfl
    | infty n => simp at h
    | qnan n pl => simp at h
    | snan n pl => simp at h

/-- The dictionary update of `summary_by_category` under the precision
budget: on a canonical totals list whose coefficient sum plus the new
coefficient stays below 10^28, the update succeeds, stays canonical,
keeps the coefficient sum within the budget, adds exactly the new value
to the sum of all values, and leaves the key list unchanged (present
key) or appends the key (absent key). -/
theorem updateTotals_spec :
    ∀ (t : List (String × Dec)) (cat : String) (n : Bool) (ca : Nat),
      (∀ p ∈ t, isCanonEntry p = true) →
      (t.map entryCoeff).sum + ca < 10 ^ 28 →
      ∃ out, updateTotals t cat (.finite n ca (-2)) = some out ∧
        (∀ p ∈ out, isCanonEntry p = true) ∧
        (out.map entryCoeff).sum ≤ (t.map entryCoeff).sum + ca ∧
        (out.map (fun p => finValOf p.2)).sum =
          (t.map (fun p => finValOf p.2)).sum + finValOf (.finite n ca (-2)) ∧
        (cat ∈ t.map Prod.fst → out.map Prod.fst = t.map Prod.fst) ∧
        (cat ∉ t.map Prod.fst → out.map Prod.fst = t.map Prod.fst ++ [cat]) := by
  intro t
  induction t with
  | nil =>
    intro cat n ca _ hb
    obtain ⟨n3, c3, hadd, hle, hval⟩ := decAdd_canon false n 0 ca (-2) (by simpa using hb)
    refine ⟨[(cat, .finite n3 c3 (-2))], ?_, ?_, ?_, ?_, ?_, ?_⟩
    · simp only [updateTotals, hadd, Option.map_some']
    · intro p hp
      rw [List.mem_singleton] at hp
      subst hp
      simp [isCanonEntry]
    · simpa [entryCoeff] using hle
    · simp only [List.map_cons, List.map_nil, List.sum_cons, List.sum_nil]
      rw [hval]
      simp [finValOf]
    · intro hmem
      simp at hmem
    · intro _
      simp
  | cons p rest ih =>
    intro cat n ca hcanon hb
    by_cases hpc : p.1 = cat
    · obtain ⟨np, cp, hpv, hpcoeff⟩ := isCanonEntry_elim (hcanon p (List.mem_cons_self p rest))
      have hbudget : cp + ca < 10 ^ 28 := by
        simp only [List.map_cons, List.sum_cons, hpcoeff] at hb
        omega
      obtain ⟨n3, c3, hadd, hle, hval⟩ := decAdd_canon np n cp ca (-2) hbudget
      refine ⟨(cat, .finite n3 c3 (-2)) :: rest, ?_, ?_, ?_, ?_, ?_, ?_⟩
      · simp only [updateTotals]
        rw [if_pos hpc, hpv, hadd]
        rfl
      · intro q hq
        rcases List.mem_cons.mp hq with hq | hq
        · subst hq
          simp [isCanonEntry]
        · exact hcanon q (List.mem_cons_of_mem p hq)
      · simp only [List.map_cons, List.sum_cons, hpcoeff]
        have hec : entryCoeff (cat, Dec.finite n3 c3 (-2)) = c3 := rfl
        rw [hec]
        omega
      · simp only [List.map_cons, List.sum_cons]
        have h1 : finValOf (cat, Dec.finite n3 c3 (-2)).2 = finValOf (Dec.finite n3 c3 (-2)) := rfl
        rw [h1, hval, hpv]
        ring
      · intro _
        simp only [List.map_cons]
        rw [hpc]
      · intro hnot
        exact absurd (by simp [hpc] : cat ∈ (p :: rest).map Prod.fst) hnot
    · have hcanon2 : ∀ q ∈ rest, isCanonEntry q = true :=
        fun q hq => hcanon q (List.mem_cons_of_mem p hq)
      have hb2 : (rest.map entryCoeff).sum + ca < 10 ^ 28 := by
        simp only [List.map_cons, List.sum_cons] at hb
        omega
      obtain ⟨out, hout, hcan, hle, hval, hmem1, hmem2⟩ := ih cat n ca hcanon2 hb2
      refine ⟨p :: out, ?_, ?_, ?_, ?_, ?_, ?_⟩
      · simp only [updateTotals]
        rw [if_neg hpc, hout]
        rfl
      · intro q hq
        rcases List.mem_cons.mp hq with hq | hq
        · rw [hq]
          exact hcanon p (List.mem_cons_self p rest)
        · exact hcan q hq
      · simp only [List.map_cons, List.sum_cons]
        omega
      · simp only [List.map_cons, List.sum_cons]
        rw [hval]
        ring
      · intro hmem
        simp only [List.map_cons, List.mem_cons] at hmem ⊢
        rcases hmem with hmem | hmem
        · exact absurd hmem.symm hpc
        · rw [hmem1 hmem]
      · intro hnot
        simp only [List.map_cons] at hnot ⊢
        rw [hmem2 (fun hc => hnot (List.mem_cons_of_mem _ hc))]
        rfl

/-- The accumulation loop of `summary_by_category` under the precision
budget: on canonical rows and a canonical totals list whose coefficient
sums fit below 10^28 together, the loop succeeds with no rounding: the
sum of all totals grows by exactly the exact sum of the row amounts, the
result stays canonical and within budget, the keys become the old keys
plus the categories seen, and key-nodup is preserved. -/
theorem summaryLoop_spec :
    ∀ (rows : List Record) (totals : List (String × Dec)),
      (∀ r ∈ rows, isCanonAmt r = true) →
      (∀ p ∈ totals, isCanonEntry p = true) →
      (totals.map entryCoeff).sum + (rows.map amtCoeff).sum < 10 ^ 28 →
      ∃ out qs, summaryLoop totals rows = some out ∧
        rows.mapM amountQ = some qs ∧
        (∀ p ∈ out, isCanonEntry p = true) ∧
        (out.map entryCoeff).sum ≤ (totals.map entryCoeff).sum + (rows.map amtCoeff).sum ∧
        (out.map (fun p => finValOf p.2)).sum =
          (totals.map (fun p => finValOf p.2)).sum + qs.sum ∧
        (∀ cat, cat ∈ out.map Prod.fst ↔
          cat ∈ totals.map Prod.fst ∨ cat ∈ rows.map Record.category) ∧
        ((totals.map Prod.fst).Nodup → (out.map Prod.fst).Nodup) := by
  intro rows
  induction rows with
  | nil =>
    intro totals _ hcanon _
    exact ⟨totals, [], rfl, rfl, hcanon, by simp, by simp, by simp, fun h => h⟩
  | cons r rest ih =>
    intro totals hrows hcanon hb
    obtain ⟨na, ca, hdec, hcoeff, hq⟩ := isCanonAmt_elim (hrows r (List.mem_cons_self r rest))
    have hb1 : (totals.map entryCoeff).sum + ca < 10 ^ 28 := by
      simp only [List.map_cons, List.sum_cons, hcoeff] at hb
      omega
    obtain ⟨mid, hmid, hmcan, hmle, hmval, hmem1, hmem2⟩ :=
      updateTotals_spec totals r.category na ca hcanon hb1
    have hb2 : (mid.map entryCoeff).sum + (rest.map amtCoeff).sum < 10 ^ 28 := by
      have h1 := hmle
      simp only [List.map_cons, List.sum_cons, hcoeff] at hb
      omega
    obtain ⟨out, qs, hloop, hqs, hocan, hole, hoval, homem, hond⟩ :=
      ih mid (fun x hx => hrows x (List.mem_cons_of_mem r hx)) hmcan hb2
    have hmidmem : ∀ c0, c0 ∈ mid.map Prod.fst ↔
        c0 ∈ totals.map Prod.fst ∨ c0 = r.category := by
      intro c0
      by_cases hrc : r.category ∈ totals.map Prod.fst
      · rw [hmem1 hrc]
        constructor
        · exact Or.inl
        · rintro (h | h)
          · exact h
          · rw [h]
            exact hrc
      · rw [hmem2 hrc]
        simp [List.mem_append]
    refine ⟨out, finValOf (.finite na ca (-2)) :: qs, ?_, ?_, hocan, ?_, ?_, ?_, ?_⟩
    · simp only [summaryLoop, hdec, hmid]
      exact hloop
    · rw [List.mapM_cons, hq, hqs]
      rfl
    · simp only [List.map_cons, List.sum_cons, hcoeff]
      have h1 := hmle
      omega
    · rw [hoval, hmval]
      simp only [List.sum_cons]
      ring
    · intro cat
      rw [homem cat, hmidmem cat]
      simp only [List.map_cons, List.mem_cons]
      tauto
    · intro hnd
      apply hond
      by_cases hrc : r.category ∈ totals.map Prod.fst
      · rw [hmem1 hrc]
        exact hnd
      · rw [hmem2 hrc]
        simp [List.nodup_append, hnd, hrc]

/-- C6 counterexample: the claim says every valid store sums exactly
with no rounding drift; but the default decimal context rounds additions
to 28 significant digits, so two records of the storable amount
99999999999999999999999999.99 in one category total
2.000000000000000000000000000E+26 = 200000000000000000000000000.0,
while the exact sum of the two stored amounts is
199999999999999999999999999.98. -/
theorem c6_counterexample :
    summary_by_category
        [⟨"i1", "2024-01-01", "big", "99999999999999999999999999.99", ""⟩,
          ⟨"i2", "2024-01-01", "big", "99999999999999999999999999.99", ""⟩] =
      some [("big", .finite false 2000000000000000000000000000 (-1))] ∧
    decFromString "99999999999999999999999999.99" =
      some (.finite false 9999999999999999999999999999 (-2)) ∧
    finValOf (.finite false 2000000000000000000000000000 (-1)) ≠
      finValOf (.finite false 9999999999999999999999999999 (-2)) +
        finValOf (.finite false 9999999999999999999999999999 (-2)) := by
  refine ⟨by decide, by decide, ?_⟩
  have h1 : (10 : ℚ) ^ (-1 : ℤ) = (10 : ℚ)⁻¹ := zpow_neg_one 10
  have h2 : (10 : ℚ) ^ (-2 : ℤ) = ((10 : ℚ) ^ (2 : ℕ))⁻¹ := by
    rw [zpow_neg]
    norm_num
  simp only [finValOf, h1, h2, Bool.false_eq_true, if_false, one_mul]
  intro hcontra
  field_simp at hcontra
  norm_num at hcontra

/-- C6 (amended): for every record set whose amounts are canonical
two-fractional-digit decimals (the form the program itself writes) with
coefficient sum below 10^28 — so the 28-significant-digit context
rounding of `+` is never reached — `summary_by_category` succeeds, the
sum of all per-category totals equals the exact sum of all record
amounts, every total is a two-fractional-digit decimal, and the returned
categories are exactly the categories of the record set, each exactly
once; beyond that budget the context addition rounds
(`c6_counterexample`). -/
theorem c6_summary_invariant (rows : List Record)
    (hc : ∀ r ∈ rows, isCanonAmt r = true)
    (hb : (rows.map amtCoeff).sum < 10 ^ 28) :
    ∃ totals qs, summary_by_category rows = some totals ∧
      rows.mapM amountQ = some qs ∧
      (∀ p ∈ totals, isCanonEntry p = true) ∧
      (totals.map (fun p => finValOf p.2)).sum = qs.sum ∧
      (totals.map Prod.fst).Nodup ∧
      (∀ cat, cat ∈ totals.map Prod.fst ↔ cat ∈ rows.map Record.category) := by
  obtain ⟨out, qs, h1, h2, h3, _, h5, h6, h7⟩ :=
    summaryLoop_spec rows [] hc (by simp) (by simpa using hb)
  exact ⟨out, qs, h1, h2, h3, by simpa using h5, h7 (by simp),
    fun cat => by simpa using h6 cat⟩

/-- C6 witness: the invariant applied at a concrete two-category
store. -/
theorem c6_summary_invariant_witness :
    ∃ totals qs,
      summary_by_category [⟨"i1", "2024-01-01", "food", "1.50", ""⟩,
        ⟨"i2", "2024-01-01", "misc", "2.50", ""⟩] = some totals ∧
      [Record.mk "i1" "2024-01-01" "food" "1.50" "",
        Record.mk "i2" "2024-01-01" "misc" "2.50" ""].mapM amountQ = some qs ∧
      (∀ p ∈ totals, isCanonEntry p = true) ∧
      (totals.map (fun p => finValOf p.2)).sum = qs.sum ∧
      (totals.map Prod.fst).Nodup ∧
      (∀ cat, cat ∈ totals.map Prod.fst ↔
        cat ∈ [Record.mk "i1" "2024-01-01" "food" "1.50" "",
          Record.mk "i2" "2024-01-01" "misc" "2.50" ""].map Record.category) :=
  c6_summary_invariant
    [⟨"i1", "2024-01-01", "food", "1.50", ""⟩, ⟨"i2", "2024-01-01", "misc", "2.50", ""⟩]
    (by decide) (by decide)

/-! ## Claim C7: summary by date range -/

/-- Inserting keeps the multiset: `insertByDate r l` is a permutation of
`r :: l`. -/
theorem insertByDate_perm (r : Record) :
    ∀ l : List Record, (insertByDate r l).Perm (r :: l) := by
  intro l
  induction l with
  | nil => exact List.Perm.refl _
  | cons x xs ih =>
    unfold insertByDate
    split
    · exact (ih.cons x).trans (List.Perm.swap r x xs)
    · exact List.Perm.refl _

/-- `sortByDate` is a permutation of its input. -/
theorem sortByDate_perm : ∀ l : List Record, (sortByDate l).Perm l := by
  intro l
  induction l with
  | nil => exact List.Perm.refl _
  | cons r rest ih =>
    exact (insertByDate_perm r (sortByDate rest)).trans (ih.cons r)

/-- Inserting into a date-sorted list keeps it date-sorted. -/
theorem insertByDate_sorted (r : Record) :
    ∀ l : List Record, l.Pairwise (fun a b => a.date ≤ b.date) →
      (insertByDate r l).Pairwise (fun a b => a.date ≤ b.date) := by
  intro l
  induction l with
  | nil => intro _; exact List.pairwise_singleton _ r
  | cons x xs ih =>
    intro hp
    rw [List.pairwise_cons] at hp
    obtain ⟨hx, hxs⟩ := hp
    unfold insertByDate
    split
    case isTrue hlt =>
      rw [List.pairwise_cons]
      refine ⟨?_, ih hxs⟩
      intro b hb
      have hmem := (insertByDate_perm r xs).mem_iff.mp hb
      rcases List.mem_cons.mp hmem with hb2 | hb2
      · rw [hb2]
        exact le_of_lt hlt
      · exact hx b hb2
    case isFalse hnlt =>
      rw [List.pairwise_cons]
      refine ⟨?_, List.pairwise_cons.mpr ⟨hx, hxs⟩⟩
      intro b hb
      rcases List.mem_cons.mp hb with hb2 | hb2
      · rw [hb2]
        exact le_of_not_lt hnlt
      · exact (le_of_not_lt hnlt).trans (hx b hb2)

/-- `sortByDate` sorts ascending by the date string. -/
theorem sortByDate_sorted :
    ∀ l : List Record, (sortByDate l).Pairwise (fun a b => a.date ≤ b.date) := by
  intro l
  induction l with
  | nil => exact List.Pairwise.nil
  | cons r rest ih => exact insertByDate_sorted r (sortByDate rest) ih

/-- The filtering loop of `summary_by_date_range` under the precision
budget: when every stored date parses, every in-range amount is a
canonical two-fractional-digit decimal, and the running coefficient plus
the in-range coefficient sum stays below 10^28, the loop returns the
in-range records appended to the accumulator in store order together
with a canonical total worth exactly the running total plus the exact
sum of the in-range amounts. -/
theorem rangeLoop_spec (s e : PyDate) :
    ∀ (rows filtered : List Record) (nt : Bool) (ct : Nat),
      (∀ r ∈ rows, (parse_date r.date).isSome = true) →
      (∀ r ∈ rows, inRange s e r = true → isCanonAmt r = true) →
      ct + ((rows.filter (inRange s e)).map amtCoeff).sum < 10 ^ 28 →
      ∃ nOut cOut qs,
        (rows.filter (inRange s e)).mapM amountQ = some qs ∧
        rangeLoop s e rows filtered (.finite nt ct (-2)) =
          some (filtered ++ rows.filter (inRange s e), .finite nOut cOut (-2)) ∧
        cOut ≤ ct + ((rows.filter (inRange s e)).map amtCoeff).sum ∧
        finValOf (.finite nOut cOut (-2)) =
          finValOf (.finite nt ct (-2)) + qs.sum := by
  intro rows
  induction rows with
  | nil =>
    intro filtered nt ct _ _ _
    refine ⟨nt, ct, [], rfl, ?_, by simp, by simp⟩
    simp [rangeLoop]
  | cons r rest ih =>
    intro filtered nt ct hd ha hb
    obtain ⟨d, hdr⟩ := Option.isSome_iff_exists.mp (hd r (List.mem_cons_self r rest))
    have hd2 : ∀ x ∈ rest, (parse_date x.date).isSome = true :=
      fun x hx => hd x (List.mem_cons_of_mem r hx)
    have ha2 : ∀ x ∈ rest, inRange s e x = true → isCanonAmt x = true :=
      fun x hx => ha x (List.mem_cons_of_mem r hx)
    by_cases hir : inRange s e r = true
    · have hcond : (dateLe s d && dateLe d e) = true := by
        unfold inRange at hir
        rw [hdr] at hir
        exact hir
      obtain ⟨na, ca, hdec, hcoeff, hq⟩ :=
        isCanonAmt_elim (ha r (List.mem_cons_self r rest) hir)
      have hfil : (r :: rest).filter (inRange s e) = r :: rest.filter (inRange s e) :=
        List.filter_cons_of_pos hir
      have hbudget : ct + ca < 10 ^ 28 := by
        rw [hfil] at hb
        simp only [List.map_cons, List.sum_cons, hcoeff] at hb
        omega
      obtain ⟨n3, c3, hadd, hle3, hval3⟩ := decAdd_canon nt na ct ca (-2) hbudget
      have hb2 : c3 + ((rest.filter (inRange s e)).map amtCoeff).sum < 10 ^ 28 := by
        rw [hfil] at hb
        simp only [List.map_cons, List.sum_cons, hcoeff] at hb
        omega
      obtain ⟨nOut, cOut, qs, hqs, hloop, hole, hoval⟩ := ih (filtered ++ [r]) n3 c3 hd2 ha2 hb2
      refine ⟨nOut, cOut, finValOf (.finite na ca (-2)) :: qs, ?_, ?_, ?_, ?_⟩
      · rw [hfil, List.mapM_cons, hq, hqs]
        rfl
      · rw [hfil]
        rw [rangeLoop, hdr]
        simp only [hcond, if_true, hdec, hadd, hloop]
        simp
      · rw [hfil]
        simp only [List.map_cons, List.sum_cons, hcoeff]
        omega
      · rw [hoval, hval3]
        simp only [List.sum_cons]
        ring
    · have hir2 : inRange s e r = false := by
        cases hv : inRange s e r
        · rfl
        · exact absurd hv hir
      have hcond : (dateLe s d && dateLe d e) = false := by
        unfold inRange at hir2
        rw [hdr] at hir2
        exact hir2
      have hfil : (r :: rest).filter (inRange s e) = rest.filter (inRange s e) :=
        List.filter_cons_of_neg (by simp [hir2])
      rw [hfil] at hb ⊢
      obtain ⟨nOut, cOut, qs, hqs, hloop, hole, hoval⟩ := ih filtered nt ct hd2 ha2 hb
      refine ⟨nOut, cOut, qs, hqs, ?_, hole, hoval⟩
      rw [rangeLoop, hdr]
      simp only [hcond, Bool.false_eq_true, if_false]
      exact hloop

/-- C7 counterexample: the claim says the operation fails with
`RangeError` exactly when `start > end`; but on an empty store the code
returns its empty-store outcome before even reading the dates, so with
the perfectly valid dates start = 2024-01-02 > end = 2024-01-01 no range
error is reported. -/
theorem c7_counterexample :
    parse_date "2024-01-02" = some ⟨2024, 1, 2⟩ ∧
    parse_date "2024-01-01" = some ⟨2024, 1, 1⟩ ∧
    dateLt ⟨2024, 1, 1⟩ ⟨2024, 1, 2⟩ = true ∧
    summary_by_date_range "2024-01-02" "2024-01-01" [] = some .noExpenses ∧
    (RangeOutcome.noExpenses ≠ RangeOutcome.invalidRange) := by
  refine ⟨by decide, by decide, by decide, by decide, by decide⟩

/-- C7 (amended): on a non-empty store the single `Invalid date range.`
outcome is reported when the start or the end date fails to parse (not a
distinct validation error) or when, both dates parsing, start > end;
otherwise the operation returns exactly the records with
start ≤ date ≤ end (dates re-parsed from the store), sorted ascending by
date string (chronological for canonical dates), with their total
accumulated by decimal context addition — exact here because the
in-range amounts are canonical two-fractional-digit decimals whose
coefficient sum stays below the 28-digit context precision — and an
empty match set is signalled by the distinct
`No expenses in that range.` outcome; an empty store short-circuits
before the dates are considered. -/
theorem c7_summary_by_date_range (startIn endIn : String) (rows : List Record)
    (s e : PyDate) (hs : parse_date startIn = some s) (he : parse_date endIn = some e)
    (hne : rows ≠ [])
    (hd : ∀ r ∈ rows, (parse_date r.date).isSome = true)
    (ha : ∀ r ∈ rows, inRange s e r = true → isCanonAmt r = true)
    (hb : ((rows.filter (inRange s e)).map amtCoeff).sum < 10 ^ 28) :
    (∀ aIn bIn : String, parse_date aIn = none ∨ parse_date bIn = none →
      summary_by_date_range aIn bIn rows = some .invalidRange) ∧
    (dateLt e s = true →
      summary_by_date_range startIn endIn rows = some .invalidRange) ∧
    (dateLt e s = false →
      (rows.filter (inRange s e) = [] →
        summary_by_date_range startIn endIn rows = some .noneInRange) ∧
      (rows.filter (inRange s e) ≠ [] →
        ∃ nOut cOut qs,
          (rows.filter (inRange s e)).mapM amountQ = some qs ∧
          summary_by_date_range startIn endIn rows =
            some (.results (sortByDate (rows.filter (inRange s e)))
              (.finite nOut cOut (-2))) ∧
          finValOf (.finite nOut cOut (-2)) = qs.sum ∧
          (sortByDate (rows.filter (inRange s e))).Perm (rows.filter (inRange s e)) ∧
          (sortByDate (rows.filter (inRange s e))).Pairwise
            (fun a b => a.date ≤ b.date))) := by
  have hemp : rows.isEmpty = false := by
    cases rows with
    | nil => exact absurd rfl hne
    | cons x xs => rfl
  refine ⟨?_, ?_, ?_⟩
  · intro aIn bIn hbad
    unfold summary_by_date_range
    rw [hemp]
    rcases hbad with hbad | hbad
    · rw [hbad]
      rcases parse_date bIn with _ | d2 <;> simp
    · rw [hbad]
      rcases parse_date aIn with _ | d1 <;> simp
  · intro hgt
    unfold summary_by_date_range
    rw [hemp, hs, he]
    simp only [Bool.false_eq_true, if_false, hgt, if_true]
  · intro hle
    obtain ⟨nOut, cOut, qs, hqs, hloop, hole, hoval⟩ :=
      rangeLoop_spec s e rows [] false 0 hd ha (by simpa using hb)
    constructor
    · intro hfil
      unfold summary_by_date_range
      rw [hemp, hs, he]
      simp only [Bool.false_eq_true, if_false, hle, hloop, hfil]
      simp
    · intro hfil
      refine ⟨nOut, cOut, qs, hqs, ?_, ?_, sortByDate_perm _, sortByDate_sorted _⟩
      · unfold summary_by_date_range
        rw [hemp, hs, he]
        simp only [Bool.false_eq_true, if_false, hle, hloop]
        have hfe : (rows.filter (inRange s e)).isEmpty = false := by
          cases hv : rows.filter (inRange s e) with
          | nil => exact absurd hv hfil
          | cons x xs => rfl
        simp only [List.nil_append, hfe, Bool.false_eq_true, if_false]
      · rw [hoval]
        have hz : finValOf (.finite false 0 (-2)) = 0 := by
          simp [finValOf]
        rw [hz, zero_add]

/-- C7 witness: the date-range scenario of the specification — three
records dated 2024-01-01 (5.00), 2024-01-15 (3.00), 2024-02-01 (7.00)
queried from 2024-01-01 to 2024-01-31 — instantiating the amended
theorem; the in-range set is the first two records. -/
theorem c7_summary_by_date_range_witness :
    ∃ nOut cOut qs,
      ([⟨"a1", "2024-01-01", "misc", "5.00", ""⟩,
        ⟨"b2", "2024-01-15", "misc", "3.00", ""⟩,
        ⟨"c3", "2024-02-01", "misc", "7.00", ""⟩].filter
          (inRange ⟨2024, 1, 1⟩ ⟨2024, 1, 31⟩)).mapM amountQ = some qs ∧
      summary_by_date_range "2024-01-01" "2024-01-31"
          [⟨"a1", "2024-01-01", "misc", "5.00", ""⟩,
            ⟨"b2", "2024-01-15", "misc", "3.00", ""⟩,
            ⟨"c3", "2024-02-01", "misc", "7.00", ""⟩] =
        some (.results (sortByDate ([⟨"a1", "2024-01-01", "misc", "5.00", ""⟩,
          ⟨"b2", "2024-01-15", "misc", "3.00", ""⟩,
          ⟨"c3", "2024-02-01", "misc", "7.00", ""⟩].filter
            (inRange ⟨2024, 1, 1⟩ ⟨2024, 1, 31⟩)))
          (.finite nOut cOut (-2))) ∧
      finValOf (.finite nOut cOut (-2)) = qs.sum ∧
      (sortByDate ([⟨"a1", "2024-01-01", "misc", "5.00", ""⟩,
        ⟨"b2", "2024-01-15", "misc", "3.00", ""⟩,
        ⟨"c3", "2024-02-01", "misc", "7.00", ""⟩].filter
          (inRange ⟨2024, 1, 1⟩ ⟨2024, 1, 31⟩))).Perm
        ([⟨"a1", "2024-01-01", "misc", "5.00", ""⟩,
          ⟨"b2", "2024-01-15", "misc", "3.00", ""⟩,
          ⟨"c3", "2024-02-01", "misc", "7.00", ""⟩].filter
            (inRange ⟨2024, 1, 1⟩ ⟨2024, 1, 31⟩)) ∧
      (sortByDate ([⟨"a1", "2024-01-01", "misc", "5.00", ""⟩,
        ⟨"b2", "2024-01-15", "misc", "3.00", ""⟩,
        ⟨"c3", "2024-02-01", "misc", "7.00", ""⟩].filter
          (inRange ⟨2024, 1, 1⟩ ⟨2024, 1, 31⟩))).Pairwise
        (fun a b => a.date ≤ b.date) :=
  ((c7_summary_by_date_range "2024-01-01" "2024-01-31"
      [⟨"a1", "2024-01-01", "misc", "5.00", ""⟩,
        ⟨"b2", "2024-01-15", "misc", "3.00", ""⟩,
        ⟨"c3", "2024-02-01", "misc", "7.00", ""⟩]
      ⟨2024, 1, 1⟩ ⟨2024, 1, 31⟩ (by decide) (by decide) (by decide)
      (by decide) (by decide) (by decide)).2.2 (by decide)).2 (by decide)

/-! ## Claim C9: the write/read round trip -/

/-- Structure eta for strings: rebuilding a string from its characters
is the identity. -/
theorem stringMk_data (s : String) : String.mk s.data = s := rfl

/-- Scanning an escaped field body inside quotes accumulates exactly the
original characters, whatever follows. -/
theorem csvRun_quo_escape :
    ∀ (cs rest fld : List Char) (row : List String) (acc : List (List String)),
      csvRun .quo (escapeQuotes cs ++ rest) fld row acc =
        csvRun .quo rest (fld ++ cs) row acc := by
  intro cs
  induction cs with
  | nil =>
    intro rest fld row acc
    simp [escapeQuotes]
  | cons c cs2 ih =>
    intro rest fld row acc
    by_cases hc : c = '"'
    · subst hc
      have he : escapeQuotes ('"' :: cs2) ++ rest =
          '"' :: '"' :: (escapeQuotes cs2 ++ rest) := by
        simp [escapeQuotes]
      rw [he, csvRun.eq_def]
      simp only []
      rw [show csvRun .quo (escapeQuotes cs2 ++ rest) (fld ++ ['"']) row acc =
          csvRun .quo rest ((fld ++ ['"']) ++ cs2) row acc from ih rest (fld ++ ['"']) row acc]
      simp
    · have he : escapeQuotes (c :: cs2) ++ rest = c :: (escapeQuotes cs2 ++ rest) := by
        simp [escapeQuotes, hc]
      rw [he, csvRun.eq_def]
      simp only [hc, if_false]
      rw [ih rest (fld ++ [c]) row acc]
      simp

/-- Scanning an unquoted field body (no delimiter or line break)
accumulates exactly its characters, whatever follows. -/
theorem csvRun_unq_plain :
    ∀ (cs rest fld : List Char) (row : List String) (acc : List (List String)),
      (∀ c ∈ cs, c ≠ ',' ∧ c ≠ '\r' ∧ c ≠ '\n') →
      csvRun .unq (cs ++ rest) fld row acc = csvRun .unq rest (fld ++ cs) row acc := by
  intro cs
  induction cs with
  | nil =>
    intro rest fld row acc _
    simp
  | cons c cs2 ih =>
    intro rest fld row acc h
    obtain ⟨h1, h2, h3⟩ := h c (List.mem_cons_self c cs2)
    rw [List.cons_append, csvRun.eq_def]
    simp only [h1, h2, h3, if_false]
    rw [ih rest (fld ++ [c]) row acc (fun x hx => h x (List.mem_cons_of_mem c hx))]
    simp

/-- A field the writer leaves unquoted contains no delimiter, quote or
line-break character. -/
theorem needsQuote_false_chars {fd : List Char} (h : needsQuote fd = false) :
    ∀ c ∈ fd, c ≠ ',' ∧ c ≠ '"' ∧ c ≠ '\r' ∧ c ≠ '\n' := by
  intro c hc
  have hx : ¬((c = ',' || c = '"' || c = '\r' || c = '\n') = true) := by
    intro hx
    have : needsQuote fd = true := List.any_eq_true.mpr ⟨c, hc, hx⟩
    rw [this] at h
    exact absurd h (by simp)
  simp only [Bool.or_eq_true, decide_eq_true_eq, not_or] at hx
  obtain ⟨⟨⟨n1, n2⟩, n3⟩, n4⟩ := hx
  exact ⟨n1, n2, n3, n4⟩

/-- Parsing one encoded field followed by a comma: the field is appended
to the current row and scanning resumes at the next field. -/
theorem csvRun_field_comma (f : String) (rest : List Char) (row : List String)
    (acc : List (List String)) :
    csvRun .start (encodeField f ++ ',' :: rest) [] row acc =
      csvRun .start rest [] (row ++ [f]) acc := by
  obtain ⟨fd⟩ := f
  show csvRun .start (encodeField ⟨fd⟩ ++ ',' :: rest) [] row acc =
    csvRun .start rest [] (row ++ [String.mk fd]) acc
  unfold encodeField
  by_cases hq : needsQuote fd = true
  · simp only [hq, if_true]
    rw [List.cons_append, List.append_assoc, List.singleton_append]
    conv_lhs => rw [csvRun.eq_def]
    simp only [reduceIte, reduceCtorEq, Char.reduceEq, if_true, if_false]
    rw [show csvRun .quo (escapeQuotes fd ++ '"' :: ',' :: rest) [] row acc =
        csvRun .quo ('"' :: ',' :: rest) ([] ++ fd) row acc from
      csvRun_quo_escape fd ('"' :: ',' :: rest) [] row acc]
    conv_lhs => rw [csvRun.eq_def]
    simp
  · have hq2 : needsQuote fd = false := by
      cases hv : needsQuote fd
      · rfl
      · exact absurd hv hq
    have hchars := needsQuote_false_chars hq2
    simp only [hq2, Bool.false_eq_true, if_false]
    cases fd with
    | nil =>
      rw [List.nil_append, csvRun.eq_def]
      simp
    | cons c cs2 =>
      obtain ⟨n1, n2, n3, n4⟩ := hchars c (List.mem_cons_self c cs2)
      rw [List.cons_append, csvRun.eq_def]
      simp only [n1, n2, n3, n4, if_false]
      rw [show csvRun .unq (cs2 ++ ',' :: rest) [c] row acc =
          csvRun .unq (',' :: rest) ([c] ++ cs2) row acc from
        csvRun_unq_plain cs2 (',' :: rest) [c] row acc
          (fun x hx =>
            have h4 := hchars x (List.mem_cons_of_mem c hx)
            ⟨h4.1, h4.2.2.1, h4.2.2.2⟩)]
      conv_lhs => rw [csvRun.eq_def]
      simp

/-- Parsing one encoded field followed by the row terminator, with at
least one field already in the row: the row is closed and appended. -/
theorem csvRun_field_crlf (f : String) (rest : List Char) (row : List String)
    (acc : List (List String)) (hrow : row ≠ []) :
    csvRun .start (encodeField f ++ '\r' :: '\n' :: rest) [] row acc =
      csvRun .start rest [] [] (acc ++ [row ++ [f]]) := by
  have hre : row.isEmpty = false := by
    cases row with
    | nil => exact absurd rfl hrow
    | cons x xs => rfl
  obtain ⟨fd⟩ := f
  show csvRun .start (encodeField ⟨fd⟩ ++ '\r' :: '\n' :: rest) [] row acc =
    csvRun .start rest [] [] (acc ++ [row ++ [String.mk fd]])
  unfold encodeField
  by_cases hq : needsQuote fd = true
  · simp only [hq, if_true]
    rw [List.cons_append, List.append_assoc, List.singleton_append]
    conv_lhs => rw [csvRun.eq_def]
    simp only [reduceIte, reduceCtorEq, Char.reduceEq, if_true, if_false]
    rw [show csvRun .quo (escapeQuotes fd ++ '"' :: '\r' :: '\n' :: rest) [] row acc =
        csvRun .quo ('"' :: '\r' :: '\n' :: rest) ([] ++ fd) row acc from
      csvRun_quo_escape fd ('"' :: '\r' :: '\n' :: rest) [] row acc]
    conv_lhs => rw [csvRun.eq_def]
    simp
  · have hq2 : needsQuote fd = false := by
      cases hv : needsQuote fd
      · rfl
      · exact absurd hv hq
    have hchars := needsQuote_false_chars hq2
    simp only [hq2, Bool.false_eq_true, if_false]
    cases fd with
    | nil =>
      rw [List.nil_append, csvRun.eq_def]
      simp [endBlankRow, hre]
    | cons c cs2 =>
      obtain ⟨n1, n2, n3, n4⟩ := hchars c (List.mem_cons_self c cs2)
      rw [List.cons_append, csvRun.eq_def]
      simp only [n1, n2, n3, n4, if_false]
      rw [show csvRun .unq (cs2 ++ '\r' :: '\n' :: rest) [c] row acc =
          csvRun .unq ('\r' :: '\n' :: rest) ([c] ++ cs2) row acc from
        csvRun_unq_plain cs2 ('\r' :: '\n' :: rest) [c] row acc
          (fun x hx =>
            have h4 := hchars x (List.mem_cons_of_mem c hx)
            ⟨h4.1, h4.2.2.1, h4.2.2.2⟩)]
      conv_lhs => rw [csvRun.eq_def]
      simp

/-- Parsing one encoded row followed by further input: the row's fields
are appended as one parsed row.  (A singleton row needs the current row
nonempty so the empty-field case cannot be mistaken for a blank line;
rows of the backing file always have five fields.) -/
theorem csvRun_row :
    ∀ (fs : List String) (rest : List Char) (row : List String)
      (acc : List (List String)), fs ≠ [] → (row = [] → 2 ≤ fs.length) →
      csvRun .start (encodeFields fs ++ '\r' :: '\n' :: rest) [] row acc =
        csvRun .start rest [] [] (acc ++ [row ++ fs]) := by
  intro fs
  induction fs with
  | nil =>
    intro rest row acc h _
    exact absurd rfl h
  | cons f fs2 ih =>
    intro rest row acc _ hrow
    cases fs2 with
    | nil =>
      have hrne : row ≠ [] := by
        intro h0
        have := hrow h0
        simp at this
      show csvRun .start (encodeField f ++ '\r' :: '\n' :: rest) [] row acc = _
      rw [csvRun_field_crlf f rest row acc hrne]
    | cons g fs3 =>
      show csvRun .start ((encodeField f ++ ',' :: encodeFields (g :: fs3)) ++
          '\r' :: '\n' :: rest) [] row acc = _
      rw [List.append_assoc, List.cons_append]
      rw [csvRun_field_comma f (encodeFields (g :: fs3) ++ '\r' :: '\n' :: rest) row acc]
      rw [ih rest (row ++ [f]) acc (by simp) (fun h0 => absurd h0 (by simp))]
      simp

/-- Parsing the encoded record rows appends one parsed row per
record. -/
theorem csvRun_rows :
    ∀ (rows : List Record) (acc : List (List String)),
      csvRun .start (encodeRows rows) [] [] acc =
        some (acc ++ rows.map toFields) := by
  intro rows
  induction rows with
  | nil =>
    intro acc
    show csvRun .start [] [] [] acc = _
    rw [csvRun.eq_def]
    simp [endBlankRow]
  | cons r rest ih =>
    intro acc
    show csvRun .start ((encodeFields (toFields r) ++ ['\r', '\n']) ++ encodeRows rest)
        [] [] acc = _
    rw [List.append_assoc, List.cons_append, List.cons_append, List.nil_append]
    rw [csvRun_row (toFields r) (encodeRows rest) [] acc (by simp [toFields])
      (fun _ => by simp [toFields])]
    rw [ih (acc ++ [[] ++ toFields r])]
    simp

/-- Rebuilding records from their own field rows is the identity. -/
theorem mapM_ofFields_toFields :
    ∀ rows : List Record, (rows.map toFields).mapM ofFields = some rows := by
  intro rows
  induction rows with
  | nil => rfl
  | cons r rest ih =>
    rw [List.map_cons, List.mapM_cons]
    rw [show ofFields (toFields r) = some r from rfl, ih]
    rfl

/-- C9: for every record list, writing the store and reading it back
yields exactly the same records — count, order and every field value are
preserved (quoting normalization happens inside `write_all` and is
undone by the reader). -/
theorem c9_round_trip (rows : List Record) :
    read_all (write_all rows) = some rows := by
  have h1 : csvRun .start (write_all rows) [] [] [] =
      some ([CSV_FIELDS] ++ rows.map toFields) := by
    unfold write_all
    rw [show encodeRow CSV_FIELDS ++ encodeRows rows =
        encodeFields CSV_FIELDS ++ '\r' :: '\n' :: encodeRows rows from by
      simp [encodeRow]]
    rw [csvRun_row CSV_FIELDS (encodeRows rows) [] [] (by simp [CSV_FIELDS])
      (fun _ => by simp [CSV_FIELDS])]
    rw [csvRun_rows rows ([] ++ [[] ++ CSV_FIELDS])]
    simp
  unfold read_all
  rw [h1]
  have hfil : (([CSV_FIELDS] ++ rows.map toFields).filter (fun row => !row.isEmpty)) =
      CSV_FIELDS :: rows.map toFields := by
    rw [List.singleton_append]
    apply List.filter_eq_self.mpr
    intro a ha
    rcases List.mem_cons.mp ha with h | h
    · subst h
      rfl
    · obtain ⟨r, _, rfl⟩ := List.exists_of_mem_map h
      rfl
  show (match ([CSV_FIELDS] ++ rows.map toFields).filter (fun row => !row.isEmpty) with
    | [] => some ([] : List Record)
    | header :: body => if header = CSV_FIELDS then body.mapM ofFields else none) = some rows
  rw [hfil]
  show (if CSV_FIELDS = CSV_FIELDS then (rows.map toFields).mapM ofFields else none) = some rows
  rw [if_pos rfl]
  exact mapM_ofFields_toFields rows

end ExpenseTracker
